import Mathlib

/-
Verification development for the gyd-chain core node engine.

The Go sources are shallowly embedded: every definition below mirrors a
function of the repository (package and function names are kept).  Go maps
are embedded as association lists whose write operation replaces the
existing binding in place; pointer-typed values that the source mutates in
place are embedded by threading the updated store sequentially, so that
aliasing effects of the source are reproduced.  Go `uint64` arithmetic is
embedded as Nat with an explicit `% 2^64` at every addition, subtraction
and multiplication the source performs.  Cryptographic hashing and JSON
serialization (used by the source only to produce identifiers) are taken
as parameters of the functions that consume them, packaged in a context
record; `time.Now()` is likewise threaded as an explicit parameter.
-/

/-- Word size of the Go uint64 arithmetic. -/
def w64 : Nat := 2 ^ 64

/-- Wrapping uint64 addition. -/
def add64 (a b : Nat) : Nat := (a + b) % w64

/-- Wrapping uint64 subtraction (for operands below 2^64). -/
def sub64 (a b : Nat) : Nat := (a + w64 - b % w64) % w64

/-- Wrapping uint64 multiplication. -/
def mul64 (a b : Nat) : Nat := (a * b) % w64

/-- Lookup in an association list (embedding of a Go map read). -/
def mget (l : List (String × α)) (k : String) : Option α :=
  match l with
  | [] => none
  | (k', v) :: rest => if k' = k then some v else mget rest k

/-- Lookup with a default value (Go map reads yield the zero value when absent). -/
def mgetD (l : List (String × α)) (k : String) (d : α) : α :=
  (mget l k).getD d

/-- Write to an association list, replacing an existing binding in place
(embedding of a Go map assignment). -/
def mset (l : List (String × α)) (k : String) (v : α) : List (String × α) :=
  match l with
  | [] => [(k, v)]
  | (k', v') :: rest => if k' = k then (k, v) :: rest else (k', v') :: mset rest k v

/-- Delete a binding from an association list (embedding of Go `delete`). -/
def mdel (l : List (String × α)) (k : String) : List (String × α) :=
  match l with
  | [] => []
  | (k', v') :: rest => if k' = k then rest else (k', v') :: mdel rest k

namespace state

/-- Embedding of `state.Account` (internal/state/account.go).  The reserved
`Code`/`Storage` fields and the `CreatedAt`/`UpdatedAt` timestamps are not
consulted by any claim and are left out. -/
structure Account where
  Address : String
  Nonce : Nat
  Balances : List (String × Nat)
  Staked : Nat
  Delegated : List (String × Nat)
deriving Repr, DecidableEq

/-- Embedding of `state.NewAccount`. -/
def NewAccount (address : String) : Account :=
  { Address := address, Nonce := 0, Balances := [], Staked := 0, Delegated := [] }

/-- Embedding of `Account.GetBalance`. -/
def Account.GetBalance (a : Account) (asset : String) : Nat :=
  mgetD a.Balances asset 0

/-- Embedding of `Account.SetBalance`. -/
def Account.SetBalance (a : Account) (asset : String) (amount : Nat) : Account :=
  { a with Balances := mset a.Balances asset amount }

/-- Embedding of `Account.IncrementNonce` (`a.Nonce++` wraps at 2^64). -/
def Account.IncrementNonce (a : Account) : Account :=
  { a with Nonce := add64 a.Nonce 1 }

/-- Embedding of `state.AssetType`. -/
inductive AssetType | fungible | nft | stablecoin
deriving Repr, DecidableEq

/-- Embedding of `state.Asset` (internal/state/asset.go); the optional
metadata and the timestamps are not consulted by any claim. -/
structure Asset where
  ID : String
  Typ : AssetType
  Name : String
  Symbol : String
  Decimals : Nat
  TotalSupply : Nat
  MaxSupply : Nat
  Owner : String
  Mintable : Bool
  Burnable : Bool
  Pausable : Bool
  Paused : Bool
deriving Repr, DecidableEq

/-- Embedding of the `state` package error values. -/
inductive Err | AccountNotFound | InsufficientBalance | AssetNotFound
deriving Repr, DecidableEq

/-- Embedding of `state.StateDB`.  The reader-writer lock is a concurrency
artifact with no sequential meaning and is dropped. -/
structure StateDB where
  accounts : List (String × Account)
  assets : List (String × Asset)
  dirty : List (String × Bool)
  root : String
deriving Repr, DecidableEq

/-- Embedding of `state.NewStateDB`. -/
def NewStateDB : StateDB :=
  { accounts := [], assets := [], dirty := [], root := "" }

/-- Embedding of `StateDB.GetAccount`; the source returns a deep copy, which
for pure values is the value itself. -/
def StateDB.GetAccount (s : StateDB) (address : String) : Option Account :=
  mget s.accounts address

/-- Embedding of `StateDB.SetAccount`: stores a copy and marks the address dirty. -/
def StateDB.SetAccount (s : StateDB) (address : String) (account : Account) : StateDB :=
  { s with accounts := mset s.accounts address account,
           dirty := mset s.dirty address true }

/-- Embedding of `StateDB.GetBalance`: zero for unknown accounts or assets. -/
def StateDB.GetBalance (s : StateDB) (address asset : String) : Nat :=
  match s.GetAccount address with
  | none => 0
  | some account => account.GetBalance asset

/-- Embedding of `StateDB.Transfer` (the part_001 state file, lines 67-96).
The source first looks up the sender, then inserts a fresh receiver account
into the map when absent, and only afterwards checks the sender balance; on
an error return the map mutations made so far persist, which the pair
result records.  The two balance writes go through the shared store in
source order, so the `from = to` aliasing of the source is reproduced. -/
def StateDB.Transfer (s : StateDB) (fromA toA asset : String) (amount : Nat) :
    Option Err × StateDB :=
  match mget s.accounts fromA with
  | none => (some .AccountNotFound, s)
  | some sender =>
    let s1 : StateDB :=
      match mget s.accounts toA with
      | none => { s with accounts := mset s.accounts toA (NewAccount toA) }
      | some _ => s
    if sender.GetBalance asset < amount then
      (some .InsufficientBalance, s1)
    else
      let upd := fun (st : StateDB) (addr : String) (f : Nat → Nat) =>
        match mget st.accounts addr with
        | none => st
        | some a =>
          { st with accounts := mset st.accounts addr (a.SetBalance asset (f (a.GetBalance asset))) }
      let s2 := upd s1 fromA (fun b => sub64 b amount)
      let s3 := upd s2 toA (fun b => add64 b amount)
      (none, { s3 with dirty := mset (mset s3.dirty fromA true) toA true })

end state

namespace tx

/-- Embedding of the transaction type constants of the `tx` package. -/
def TxTypeTransfer : String := "transfer"

def TxTypeStake : String := "stake"

def TxTypeUnstake : String := "unstake"

def TxTypeMint : String := "mint"

def TxTypeBurn : String := "burn"

def TxTypeCreateAsset : String := "create_asset"

def TxTypeUpdateOracle : String := "update_oracle"

/-- Embedding of `tx.Transaction` (part_005); the source field `Type` is
spelled `Typ` since `Type` is reserved in Lean.  Byte slices are lists of
byte values. -/
structure Transaction where
  Typ : String
  From : String
  To : String
  Amount : Nat
  Asset : String
  Fee : Nat
  Nonce : Nat
  Timestamp : Int
  Data : List Nat
  Signature : List Nat
  PubKey : List Nat
deriving Repr, DecidableEq

/-- Embedding of the `tx` package verification errors. -/
inductive VerifyErr
  | MissingFrom | MissingTo | ZeroAmount | MissingAsset | InvalidAsset | MissingSignature
deriving Repr, DecidableEq

/-- Embedding of `Transaction.Verify` (field-level validation; the signature
check of the source is a placeholder that only requires a non-empty
signature). `none` means the transaction verifies. -/
def Transaction.Verify (t : Transaction) : Option VerifyErr :=
  if t.From = "" then some .MissingFrom
  else if t.Typ ≠ TxTypeBurn ∧ t.To = "" then some .MissingTo
  else if t.Amount = 0 ∧ t.Typ = TxTypeTransfer then some .ZeroAmount
  else if t.Asset = "" then some .MissingAsset
  else if t.Asset ≠ "GYDS" ∧ t.Asset ≠ "GYD" then some .InvalidAsset
  else if t.Signature = [] then some .MissingSignature
  else none

end tx

namespace chain

/-- Embedding of `chain.Header` (internal/chain/header.go). -/
structure Header where
  Version : Nat
  Height : Nat
  Timestamp : Int
  ParentHash : String
  TxRoot : String
  StateRoot : String
  ReceiptRoot : String
  ValidatorSet : String
  Difficulty : Nat
  Nonce : Nat
  ExtraData : List Nat
  GasLimit : Nat
  GasUsed : Nat
deriving Repr, DecidableEq

/-- Embedding of the `chain` package error values relevant to block apply. -/
inductive Err
  | InvalidTimestamp | InvalidHeight | InvalidTxRoot
  | InvalidParent | DuplicateBlock
  | SenderNotFound | InsufficientBalance
deriving Repr, DecidableEq

/-- Embedding of `Header.Validate`; `time.Now()` is the explicit `now`
parameter (seconds). -/
def Header.Validate (h : Header) (now : Int) : Option Err :=
  if h.Timestamp > now + 15 then some .InvalidTimestamp
  else if h.Height > 0 ∧ h.ParentHash = "" then some .InvalidHeight
  else none

/-- Embedding of `chain.Block` (part_009). -/
structure Block where
  Header : Header
  Transactions : List tx.Transaction
  Validator : String
  Signature : List Nat
deriving Repr, DecidableEq

/-- Hex digit characters used by `hex.EncodeToString`. -/
def hexDigits : List Char :=
  "0123456789abcdef".toList

/-- Embedding of `hex.EncodeToString` over byte lists. -/
def hexEncode (bytes : List Nat) : String :=
  String.mk (bytes.foldr (fun b acc => hexDigits.getD (b / 16 % 16) '0' ::
    hexDigits.getD (b % 16) '0' :: acc) [])

/-- Context of the environment-dependent primitives the chain code consumes:
`txHash` models `Transaction.Hash` (SHA-256 over the JSON encoding with the
signature cleared), `headerHash` models hex(SHA-256(JSON(header))) used by
`Block.Hash`, `sha` models `sha256.Sum256` inside the Merkle fold, and `now`
models `time.Now().Unix()`. -/
structure Ctx where
  txHash : tx.Transaction → List Nat
  headerHash : Header → String
  sha : List Nat → List Nat
  now : Int

/-- One pairing level of `chain.merkleRoot`: concatenate adjacent pairs and
hash each. -/
def merklePair (sha : List Nat → List Nat) : List (List Nat) → List (List Nat)
  | a :: b :: rest => sha (a ++ b) :: merklePair sha rest
  | [a] => [sha (a ++ a)]
  | [] => []

/-- Embedding of `chain.merkleRoot`, with the recursion depth made explicit
as fuel: `fuel = hashes.length` bounds the level count, since each level at
least halves a list of length two or more. -/
def merkleRootAux (sha : List Nat → List Nat) : Nat → List (List Nat) → List Nat
  | _, [] => List.replicate 32 0
  | _, [h] => h
  | 0, _ :: _ :: _ => []
  | fuel + 1, h :: h' :: rest =>
    let hashes := h :: h' :: rest
    let hashes := if hashes.length % 2 ≠ 0 then hashes ++ [hashes.getLast!] else hashes
    merkleRootAux sha fuel (merklePair sha hashes)

/-- Embedding of `chain.merkleRoot` (part_009). -/
def merkleRoot (sha : List Nat → List Nat) (hashes : List (List Nat)) : List Nat :=
  merkleRootAux sha hashes.length hashes

/-- Embedding of `Block.CalculateTxRoot`: the empty case returns the fixed
`0x00…0` literal, the other cases return the bare hex of the Merkle root. -/
def Block.CalculateTxRoot (ctx : Ctx) (b : Block) : String :=
  if b.Transactions = [] then
    "0x0000000000000000000000000000000000000000000000000000000000000000"
  else
    hexEncode (merkleRoot ctx.sha (b.Transactions.map ctx.txHash))

/-- Embedding of `Block.Hash` (hash of the JSON-encoded header only). -/
def Block.Hash (ctx : Ctx) (b : Block) : String :=
  ctx.headerHash b.Header

/-- Embedding of `Block.Verify`: header validation, per-transaction
verification in order, then the transaction-root check. -/
def Block.Verify (ctx : Ctx) (b : Block) : Option Err :=
  match b.Header.Validate ctx.now with
  | some e => some e
  | none =>
    match b.Transactions.findSome? (fun t => t.Verify) with
    | some _ => some .InvalidTxRoot
    | none =>
      if b.CalculateTxRoot ctx ≠ b.Header.TxRoot then some .InvalidTxRoot else none

/-- Embedding of `chain.Chain` (the chain head): block map, height index,
latest pointer and the owned state store.  The genesis pointer and config
are not consulted by any claim. -/
structure ChainState where
  blocks : List (String × Block)
  heights : List (Nat × String)
  latestHash : String
  latestHeight : Nat
  stateDB : state.StateDB
deriving Repr, DecidableEq

/-- Write to the height index (a Go map keyed by uint64). -/
def hset (l : List (Nat × String)) (k : Nat) (v : String) : List (Nat × String) :=
  match l with
  | [] => [(k, v)]
  | (k', v') :: rest => if k' = k then (k, v) :: rest else (k', v') :: hset rest k v

/-- Embedding of `Chain.processTransaction` (chain.go lines 150-181): fetch
the sender, check `balance < amount + fee` (uint64 sum), read the receiver
(creating a fresh account value when absent), update both copies and write
them back in source order.  The transaction `Type` field is never consulted
here. -/
def processTransaction (s : state.StateDB) (t : tx.Transaction) :
    Option Err × state.StateDB :=
  match s.GetAccount t.From with
  | none => (some .SenderNotFound, s)
  | some sender =>
    let balance := sender.GetBalance t.Asset
    if balance < add64 t.Amount t.Fee then
      (some .InsufficientBalance, s)
    else
      let receiver := match s.GetAccount t.To with
        | none => state.NewAccount t.To
        | some r => r
      let sender := sender.SetBalance t.Asset (sub64 (sub64 balance t.Amount) t.Fee)
      let receiver := receiver.SetBalance t.Asset (add64 (receiver.GetBalance t.Asset) t.Amount)
      let sender := sender.IncrementNonce
      let s := s.SetAccount t.From sender
      let s := s.SetAccount t.To receiver
      (none, s)

/-- Embedding of the transaction loop of `Chain.AddBlock`: apply each
transaction in order, stopping at the first error; mutations made by the
transactions already applied persist in the returned store. -/
def processAll (s : state.StateDB) : List tx.Transaction → Option Err × state.StateDB
  | [] => (none, s)
  | t :: rest =>
    match processTransaction s t with
    | (some e, s') => (some e, s')
    | (none, s') => processAll s' rest

/-- Embedding of `Chain.AddBlock` (chain.go lines 103-147): verify, check
the parent, check for a duplicate hash, process the transactions (directly
against the owned state store, with no snapshot), then index the block and
update the latest pointer.  On an error after transactions started applying,
the partially updated state store is returned unchanged otherwise. -/
def AddBlock (ctx : Ctx) (c : ChainState) (b : Block) : Option Err × ChainState :=
  match b.Verify ctx with
  | some e => (some e, c)
  | none =>
    if b.Header.Height > 0 ∧ (mget c.blocks b.Header.ParentHash).isNone then
      (some .InvalidParent, c)
    else
      let hash := b.Hash ctx
      if (mget c.blocks hash).isSome then
        (some .DuplicateBlock, c)
      else
        match processAll c.stateDB b.Transactions with
        | (some e, s') => (some e, { c with stateDB := s' })
        | (none, s') =>
          let c := { c with stateDB := s',
                            blocks := mset c.blocks hash b,
                            heights := hset c.heights b.Header.Height hash }
          if b.Header.Height > c.latestHeight then
            (none, { c with latestHeight := b.Header.Height, latestHash := hash })
          else
            (none, c)

end chain

namespace pos

/-- Embedding of `pos.ValidatorStatus`. -/
inductive ValidatorStatus | Inactive | Active | Jailed | Unbonding
deriving Repr, DecidableEq

/-- Embedding of `pos.SlashEvent`. -/
structure SlashEvent where
  Height : Nat
  Reason : String
  Amount : Nat
  Timestamp : Int
deriving Repr, DecidableEq

/-- Embedding of `pos.Validator` (internal/consensus/pos/validator.go); the
performance metrics, metadata and timestamps are not consulted by any claim. -/
structure Validator where
  Address : String
  PubKey : String
  SelfStake : Nat
  TotalStake : Nat
  Delegations : List (String × Nat)
  Commission : Nat
  Rewards : Nat
  Status : ValidatorStatus
  Active : Bool
  JailedUntil : Int
  SlashEvents : List SlashEvent
deriving Repr, DecidableEq

/-- Embedding of `pos.NewValidator`. -/
def NewValidator (address pubKey : String) (stake : Nat) : Validator :=
  { Address := address, PubKey := pubKey, SelfStake := stake, TotalStake := stake,
    Delegations := [], Commission := 500, Rewards := 0,
    Status := .Active, Active := true, JailedUntil := 0, SlashEvents := [] }

/-- Embedding of `Validator.Slash` (validator.go lines 128-159), returning
the updated validator and the slash amount.  The source zeroes `SelfStake`
before the delegation loop, so the per-delegator divisor
`v.TotalStake - v.SelfStake` evaluates to the old total stake; the loop
reads only fields that stay constant across iterations and writes each
delegation key once, so a map over the delegation list is an exact
embedding of the Go range loop for every iteration order.  A zero divisor
faults in Go; the Lean embedding yields a zero quotient there. -/
def Validator.Slash (v : Validator) (percentage : Nat) (reason : String)
    (height : Nat) (now : Int) : Validator × Nat :=
  let slashAmount := mul64 v.TotalStake percentage / 100
  let v :=
    if v.SelfStake ≥ slashAmount then
      { v with SelfStake := sub64 v.SelfStake slashAmount }
    else
      let remaining := sub64 slashAmount v.SelfStake
      let v := { v with SelfStake := 0 }
      { v with Delegations := v.Delegations.map (fun (d : String × Nat) =>
          (d.1, sub64 d.2 (mul64 d.2 remaining / sub64 v.TotalStake v.SelfStake))) }
  let v := { v with TotalStake := sub64 v.TotalStake slashAmount }
  ({ v with SlashEvents := v.SlashEvents ++
      [{ Height := height, Reason := reason, Amount := slashAmount, Timestamp := now }] },
   slashAmount)

/-- Embedding of `Validator.AddDelegation`. -/
def Validator.AddDelegation (v : Validator) (delegator : String) (amount : Nat) : Validator :=
  { v with Delegations := mset v.Delegations delegator (add64 (mgetD v.Delegations delegator 0) amount),
           TotalStake := add64 v.TotalStake amount }

/-- Embedding of the `pos` engine error values. -/
inductive EngErr
  | NoValidators | NotValidator | InsufficientStake | ValidatorNotFound
  | AlreadyValidator | StakeTooLowToJoin
deriving Repr, DecidableEq

/-- Embedding of `pos.Engine` (the consensus engine state; the lock, block
time and current round/leader bookkeeping are not consulted by any claim).
The Go `validators` map is kept as an association list in insertion order;
Go iterates maps in an unspecified order, so facts proved about orderings
downstream of this list carry a distinct-stakes hypothesis that makes the
order immaterial. -/
structure Engine where
  validators : List (String × Validator)
  validatorList : List Validator
  totalStake : Nat
  minStake : Nat
  maxValidators : Nat
deriving Repr, DecidableEq

/-- Embedding of `pos.NewEngine`. -/
def NewEngine (minStake maxValidators : Nat) : Engine :=
  { validators := [], validatorList := [], totalStake := 0,
    minStake := minStake, maxValidators := maxValidators }

/-- Insertion into a list sorted by descending `TotalStake`.  The source
sorts with `sort.Slice` (an unstable sort over an unspecified map iteration
order); this deterministic sort is one admissible outcome, and coincides
with every admissible outcome when the stakes are pairwise distinct. -/
def insertDesc (v : Validator) : List Validator → List Validator
  | [] => [v]
  | w :: rest => if w.TotalStake < v.TotalStake then v :: w :: rest else w :: insertDesc v rest

/-- Sort by descending `TotalStake` (see `insertDesc`). -/
def sortDesc : List Validator → List Validator
  | [] => []
  | v :: rest => insertDesc v (sortDesc rest)

/-- Embedding of `Engine.updateValidatorList` (config.go lines 414-433):
keep validators with `Active` set and `TotalStake ≥ minStake`, sort by
total stake descending, truncate to `maxValidators`. -/
def updateValidatorList (e : Engine) : Engine :=
  let l := (e.validators.map Prod.snd).filter
    (fun v => v.Active ∧ v.TotalStake ≥ e.minStake)
  let l := sortDesc l
  { e with validatorList := if l.length > e.maxValidators then l.take e.maxValidators else l }

/-- Embedding of `Engine.RegisterValidator` (config.go lines 249-278). -/
def RegisterValidator (e : Engine) (address pubKey : String) (stake : Nat) :
    Except EngErr Engine :=
  if (mget e.validators address).isSome then .error .AlreadyValidator
  else if stake < e.minStake then .error .InsufficientStake
  else if e.validators.length ≥ e.maxValidators ∧ e.validatorList ≠ [] ∧
          stake ≤ (e.validatorList.getLastD (NewValidator "" "" 0)).TotalStake then
    .error .StakeTooLowToJoin
  else
    let validator := NewValidator address pubKey stake
    let e := { e with validators := mset e.validators address validator,
                      totalStake := add64 e.totalStake stake }
    .ok (updateValidatorList e)

/-- Embedding of `Engine.Delegate` (config.go lines 298-312). -/
def Delegate (e : Engine) (delegator validator : String) (amount : Nat) :
    Except EngErr Engine :=
  match mget e.validators validator with
  | none => .error .ValidatorNotFound
  | some v =>
    let e := { e with validators := mset e.validators validator (v.AddDelegation delegator amount),
                      totalStake := add64 e.totalStake amount }
    .ok (updateValidatorList e)

/-- Stake-weighted walk of `Engine.SelectLeader`: accumulate stake down the
list and stop at the first validator whose cumulative stake exceeds the
target. -/
def leaderWalk (cumulative target : Nat) : List Validator → Option Validator
  | [] => none
  | v :: rest =>
    let cumulative := add64 cumulative v.TotalStake
    if cumulative > target then some v else leaderWalk cumulative target rest

/-- Embedding of `Engine.SelectLeader` (config.go lines 335-361).  The
modulus is the engine's running `totalStake` (the sum over all registered
validators), and when the walk exhausts the list the source falls back to
the first entry.  Go faults on a zero modulus; Lean's `x % 0 = x` stands in
for that fault and is excluded by hypothesis wherever it matters. -/
def SelectLeader (e : Engine) (round : Nat) : Except EngErr Validator :=
  if e.validatorList = [] then .error .NoValidators
  else
    let totalWeight := e.totalStake
    let target := round % totalWeight
    match leaderWalk 0 target e.validatorList with
    | some v => .ok v
    | none => .ok (e.validatorList.headD (NewValidator "" "" 0))

/-- Embedding of `pos.SlashingParams` (slashing.go); the jail durations are
seconds. -/
structure SlashingParams where
  DoubleSignPenalty : Nat
  DowntimePenalty : Nat
  MisbehaviorPenalty : Nat
  MinSignedPerWindow : Nat
  SignedBlocksWindow : Nat
  DowntimeJailDuration : Nat
  DoubleSignJailDuration : Nat
deriving Repr, DecidableEq

/-- Embedding of `pos.DefaultSlashingParams`. -/
def DefaultSlashingParams : SlashingParams :=
  { DoubleSignPenalty := 500, DowntimePenalty := 100, MisbehaviorPenalty := 200,
    MinSignedPerWindow := 50, SignedBlocksWindow := 1000,
    DowntimeJailDuration := 24 * 3600, DoubleSignJailDuration := 30 * 24 * 3600 }

/-- Embedding of `pos.ValidatorSigningInfo`. -/
structure ValidatorSigningInfo where
  Address : String
  StartHeight : Nat
  IndexOffset : Nat
  JailedUntil : Int
  Tombstoned : Bool
  MissedBlocksCounter : Nat
  SignedBlocksBitmap : List Bool
deriving Repr, DecidableEq

/-- Embedding of `pos.SlashingKeeper` restricted to the fields `SignBlock`
touches (the engine handle and the event log belong to the downtime and
double-sign paths, which are outside the claims). -/
structure SlashingKeeper where
  params : SlashingParams
  signingInfo : List (String × ValidatorSigningInfo)
deriving Repr, DecidableEq

/-- Embedding of `SlashingKeeper.getOrCreateSigningInfo` (slashing.go lines
192-203): a fresh record has an all-false bitmap of window length and a
zero missed counter. -/
def getOrCreateSigningInfo (k : SlashingKeeper) (address : String) :
    ValidatorSigningInfo × SlashingKeeper :=
  match mget k.signingInfo address with
  | some info => (info, k)
  | none =>
    let info : ValidatorSigningInfo :=
      { Address := address, StartHeight := 0, IndexOffset := 0, JailedUntil := 0,
        Tombstoned := false, MissedBlocksCounter := 0,
        SignedBlocksBitmap := List.replicate k.params.SignedBlocksWindow false }
    (info, { k with signingInfo := mset k.signingInfo address info })

/-- Embedding of `SlashingKeeper.SignBlock` (slashing.go lines 158-190).
The final downtime check only spawns a goroutine (`go k.HandleDowntime`)
whose effect lies outside this sequential embedding; every update the
function itself performs on the signing info is reproduced. -/
def SignBlock (k : SlashingKeeper) (address : String) (height : Nat) (signed : Bool) :
    SlashingKeeper :=
  let (info, k) := getOrCreateSigningInfo k address
  let index := height % k.params.SignedBlocksWindow
  let info :=
    if info.SignedBlocksBitmap.length ≤ index then
      { info with SignedBlocksBitmap :=
          (info.SignedBlocksBitmap.take k.params.SignedBlocksWindow) ++
          List.replicate (k.params.SignedBlocksWindow - info.SignedBlocksBitmap.length) false }
    else info
  let info :=
    if info.SignedBlocksBitmap.getD index false = false ∧ info.MissedBlocksCounter > 0 then
      { info with MissedBlocksCounter := info.MissedBlocksCounter - 1 }
    else info
  let info := { info with SignedBlocksBitmap := info.SignedBlocksBitmap.set index signed }
  let info :=
    if ¬signed then { info with MissedBlocksCounter := add64 info.MissedBlocksCounter 1 }
    else info
  { k with signingInfo := mset k.signingInfo address info }

end pos

namespace pow

/-- Embedding of `pow.RewardDistributor` restricted to the fields the
reward formula reads. -/
structure RewardDistributor where
  baseReward : Nat
  halving : Nat
  minReward : Nat
deriving Repr, DecidableEq

/-- Embedding of the halving loop of `CalculateBlockReward`:
`for i := 0; i < halvings && reward > minReward; i++ { reward /= 2 }`. -/
def halveLoop (minReward : Nat) : Nat → Nat → Nat
  | 0, reward => reward
  | n + 1, reward => if reward > minReward then halveLoop minReward n (reward / 2) else reward

/-- Embedding of `RewardDistributor.CalculateBlockReward` (reward.go lines
56-73).  A zero `halving` faults in Go; Nat division by zero yields zero
halvings here, on which the loop and the closed form agree vacuously. -/
def CalculateBlockReward (d : RewardDistributor) (height : Nat) : Nat :=
  let halvings := height / d.halving
  let reward := halveLoop d.minReward halvings d.baseReward
  if reward < d.minReward then d.minReward else reward

/-- Reference definition following the words of the spec: the reward at
height h is `max(min_reward, base_reward >> (h / halving_blocks))`. -/
def rewardSpec (d : RewardDistributor) (height : Nat) : Nat :=
  max d.minReward (d.baseReward >>> (height / d.halving))

end pow

namespace crypto

/-- Human-readable part `"gyds1"` of user addresses (byte values of the
source constant; Go strings are byte slices, embedded as lists of bytes). -/
def addressHRP : List Nat := [103, 121, 100, 115, 49]

/-- Embedding of the source constant `AddressLength` (the data part length). -/
def addressLength : Nat := 38

/-- Byte values of the source charset constant
`"qpzry9x8gf2tvdw0s3jn54khce6mua7l"`. -/
def bech32Charset : List Nat :=
  [113, 112, 122, 114, 121, 57, 120, 56, 103, 102, 50, 116, 118, 100, 119, 48,
   115, 51, 106, 110, 53, 52, 107, 104, 99, 101, 54, 109, 117, 97, 55, 108]

/-- Embedding of `strings.IndexByte`: the index of the first occurrence of
the byte, `none` standing for the Go result `-1`. -/
def indexByte (l : List Nat) (c : Nat) : Option Nat :=
  match l with
  | [] => none
  | x :: rest => if x = c then some 0 else (indexByte rest c).map (· + 1)

/-- Index of a byte in the charset (`strings.IndexByte(Bech32Charset, c)`). -/
def charsetIndex (c : Nat) : Option Nat :=
  indexByte bech32Charset c

/-- Generator constants of `bech32Polymod`. -/
def bech32Gen : List Nat := [0x3b6a57b2, 0x26508e6d, 0x1ea119fa, 0x3d4233dd, 0x2a1462b3]

/-- One step of the `bech32Polymod` fold over a 5-bit value. -/
def polymodStep (chk v : Nat) : Nat :=
  let top := chk >>> 25
  let chk1 := ((chk &&& 0x1ffffff) <<< 5) ^^^ v
  (List.range 5).foldl
    (fun c i => if (top >>> i) &&& 1 = 1 then c ^^^ bech32Gen.getD i 0 else c) chk1

/-- Embedding of `crypto.bech32Polymod` (address.go lines 174-189). -/
def bech32Polymod (values : List Nat) : Nat :=
  values.foldl polymodStep 1

/-- Embedding of `crypto.hrpExpand`: high bits of each character, a zero,
then the low five bits of each character. -/
def hrpExpand (hrp : List Nat) : List Nat :=
  hrp.map (· >>> 5) ++ [0] ++ hrp.map (· &&& 31)

/-- Embedding of `crypto.bech32Checksum`: six 5-bit symbols of
`polymod(expand(hrp) ++ data ++ 000000) xor 1`, most significant first. -/
def bech32Checksum (hrp data : List Nat) : List Nat :=
  let polymod := bech32Polymod (hrpExpand hrp ++ data ++ List.replicate 6 0) ^^^ 1
  (List.range 6).map (fun i => (polymod >>> (5 * (5 - i))) &&& 31)

/-- Embedding of `crypto.verifyBech32Checksum`. -/
def verifyBech32Checksum (hrp data : List Nat) : Bool :=
  bech32Polymod (hrpExpand hrp ++ data) = 1

/-- Emission loop of `convertBits` with explicit fuel (each iteration
lowers `bits` by `toBits ≥ 1`, so `bits` itself bounds the iteration
count): while `bits ≥ toBits`, lower `bits` and emit `(acc >> bits) &
maxv`.  Returns the emitted symbols in order and the final `bits`. -/
def convertEmitGo (toBits maxv acc : Nat) : Nat → Nat → List Nat × Nat
  | 0, bits => ([], bits)
  | fuel + 1, bits =>
    if 0 < toBits ∧ toBits ≤ bits then
      let bits' := bits - toBits
      let r := convertEmitGo toBits maxv acc fuel bits'
      (((acc >>> bits') &&& maxv) :: r.1, r.2)
    else ([], bits)

/-- Emission loop of `convertBits` at its natural fuel. -/
def convertEmit (toBits maxv acc bits : Nat) : List Nat × Nat :=
  convertEmitGo toBits maxv acc bits bits

/-- One step of the `convertBits` fold: shift the new symbol into the
accumulator, raise the pending bit count, and emit every full output
symbol.  The state is `(acc, bits, result)`; `maxv = (1 << toBits) - 1` as
in the source. -/
def convStep (fromBits toBits : Nat) (st : Nat × Nat × List Nat) (v : Nat) :
    Nat × Nat × List Nat :=
  let acc := (st.1 <<< fromBits) ||| v
  let bits := st.2.1 + fromBits
  let r := convertEmit toBits ((1 <<< toBits) - 1) acc bits
  (acc, r.2, st.2.2 ++ r.1)

/-- Embedding of `crypto.convertBits` (address.go lines 115-137): regroup a
byte/symbol stream between bit widths, optionally padding the tail. -/
def convertBits (data : List Nat) (fromBits toBits : Nat) (pad : Bool) : List Nat :=
  let st := data.foldl (convStep fromBits toBits) (0, 0, [])
  if pad ∧ st.2.1 > 0 then
    st.2.2 ++ [(st.1 <<< (toBits - st.2.1)) &&& ((1 <<< toBits) - 1)]
  else st.2.2

/-- Embedding of `crypto.AddressFromHash` (address.go lines 76-89): convert
the hash to 5-bit symbols, append the checksum, and spell everything with
the charset after the HRP. -/
def AddressFromHash (hash : List Nat) : List Nat :=
  let converted := convertBits hash 8 5 true
  let checksum := bech32Checksum addressHRP converted
  let combined := converted ++ checksum
  addressHRP ++ combined.map (fun b => bech32Charset.getD b 0)

/-- Embedding of the `crypto.ValidateAddress` error cases. -/
inductive AddrErr | BadHRP | BadLength | BadChar | BadChecksum
deriving Repr, DecidableEq

/-- Embedding of `crypto.ValidateAddress` (address.go lines 41-69): check
the HRP, the length, charset membership of every data character, then the
checksum.  `none` means the address is valid. -/
def ValidateAddress (address : List Nat) : Option AddrErr :=
  if address.take addressHRP.length ≠ addressHRP then some .BadHRP
  else if address.length ≠ addressHRP.length + addressLength then some .BadLength
  else
    let data := address.drop addressHRP.length
    if ¬ data.all (fun c => (charsetIndex c).isSome) then some .BadChar
    else
      let decoded := data.map (fun c => (charsetIndex c).getD 0)
      if ¬ verifyBech32Checksum addressHRP decoded then some .BadChecksum
      else none

/-- Embedding of `crypto.DecodeAddress` (address.go lines 91-112): validate,
strip the HRP, drop the six checksum symbols, and regroup the remaining
5-bit symbols into bytes.  As written the source destructures a second
return value from `convertBits`, which has only one; the evident intent —
the converted bytes with no error — is embedded. -/
def DecodeAddress (address : List Nat) : Option (List Nat) :=
  if ValidateAddress address ≠ none then none
  else
    let data := address.drop addressHRP.length
    let decoded := (data.take (data.length - 6)).map (fun c => (charsetIndex c).getD 0)
    some (convertBits decoded 5 8 false)

/-- Value of a digit string in base `B`, most significant digit first (the
numeric reading of a `convertBits` stream). -/
def digitsVal (B : Nat) (l : List Nat) : Nat :=
  l.foldl (fun n d => n * B + d) 0

/-- Combined generator contribution of one polymod step, selected by the
low five bits of the old checksum's top. -/
def xorGens (top : Nat) : Nat :=
  (List.range 5).foldl
    (fun c i => if (top >>> i) &&& 1 = 1 then c ^^^ bech32Gen.getD i 0 else c) 0

/-- Propagation of a state difference through one polymod step: the step is
affine over GF(2), so two states fed the same symbol keep a difference that
evolves by this linear map. -/
def polymodStepD (d : Nat) : Nat :=
  ((d &&& 0x1ffffff) <<< 5) ^^^ xorGens (d >>> 25)

/-- Iterate of the difference map. -/
def polymodStepDIter : Nat → Nat → Nat
  | 0, d => d
  | m + 1, d => polymodStepDIter m (polymodStepD d)

/-- Total contribution of a symbol suffix to the final polymod, relative to
an all-zero suffix of the same length. -/
def tailMix : List Nat → Nat
  | [] => 0
  | c :: l => polymodStepDIter l.length c ^^^ tailMix l

end crypto

namespace tx

/-- Embedding of `tx.MempoolConfig`; durations are in the same abstract time
unit as the `now` parameter threaded through the mempool operations. -/
structure MempoolConfig where
  MaxSize : Nat
  MaxTxSize : Nat
  MaxTxAge : Nat
  MinGasPrice : Nat
  ReapInterval : Nat
deriving Repr, DecidableEq

/-- Embedding of `tx.MempoolTx`. -/
structure MempoolTx where
  Tx : Transaction
  Hash : String
  AddedAt : Nat
  GasPrice : Nat
  Priority : Nat
deriving Repr, DecidableEq

/-- Placeholder element for out-of-range list reads inside the heap code
(the source never reads out of range). -/
def dummyMTx : MempoolTx :=
  { Tx := { Typ := "", From := "", To := "", Amount := 0, Asset := "", Fee := 0,
            Nonce := 0, Timestamp := 0, Data := [], Signature := [], PubKey := [] },
    Hash := "", AddedAt := 0, GasPrice := 0, Priority := 0 }

/-- Gas price of the queue entry at an index (zero out of range). -/
def gp (q : List MempoolTx) (i : Nat) : Nat :=
  ((q.get? i).map MempoolTx.GasPrice).getD 0

/-- Embedding of `TxQueue.Less` (part_014 lines 314-316): higher gas price
means higher priority. -/
def lessQ (q : List MempoolTx) (i j : Nat) : Bool :=
  gp q i > gp q j

/-- Embedding of `TxQueue.Swap`. -/
def swapQ (q : List MempoolTx) (i j : Nat) : List MempoolTx :=
  let a := q.getD i dummyMTx
  let b := q.getD j dummyMTx
  (q.set i b).set j a

/-- Sift-up loop of `container/heap` (`up`) with explicit fuel (the index
strictly decreases, so any fuel above the start index suffices). -/
def heapUpGo : Nat → List MempoolTx → Nat → List MempoolTx
  | 0, q, _ => q
  | fuel + 1, q, j =>
    if j = 0 then q
    else
      let i := (j - 1) / 2
      if lessQ q j i then heapUpGo fuel (swapQ q i j) i else q

/-- Embedding of the sift-up loop of `container/heap` (`up`). -/
def heapUp (q : List MempoolTx) (j : Nat) : List MempoolTx :=
  heapUpGo (j + 1) q j

/-- Sift-down loop of `container/heap` (`down`) with explicit fuel (the
index strictly increases while staying below `n`, so `n` iterations always
suffice). -/
def heapDownGo : Nat → List MempoolTx → Nat → Nat → List MempoolTx
  | 0, q, _, _ => q
  | fuel + 1, q, i, n =>
    if 2 * i + 1 < n then
      let j := if 2 * i + 2 < n ∧ lessQ q (2 * i + 2) (2 * i + 1) then 2 * i + 2 else 2 * i + 1
      if lessQ q j i then heapDownGo fuel (swapQ q i j) j n else q
    else q

/-- Embedding of the sift-down loop of `container/heap` (`down`), restricted
to the first `n` entries. -/
def heapDown (q : List MempoolTx) (i n : Nat) : List MempoolTx :=
  heapDownGo n q i n

/-- Embedding of `heap.Push` on the `TxQueue`: append, then sift up. -/
def heapPush (q : List MempoolTx) (x : MempoolTx) : List MempoolTx :=
  heapUp (q ++ [x]) q.length

/-- Embedding of `heap.Pop` on the `TxQueue`: swap the root with the last
entry, sift the root down over the shortened range, and detach the last
entry. -/
def heapPop (q : List MempoolTx) : MempoolTx × List MempoolTx :=
  let n := q.length - 1
  let q := swapQ q 0 n
  let q := heapDown q 0 n
  (q.getLastD dummyMTx, q.dropLast)

/-- Countdown of `heap.Init`: sift down every internal node, last first. -/
def heapInitAux (q : List MempoolTx) : Nat → List MempoolTx
  | 0 => q
  | k + 1 => heapInitAux (heapDown q k q.length) k

/-- Embedding of `heap.Init` on the `TxQueue`. -/
def heapInit (q : List MempoolTx) : List MempoolTx :=
  heapInitAux q (q.length / 2)

/-- Embedding of `tx.Mempool` (part_014): the hash map of entries, the
priority queue, and the per-sender nonce map.  The stop channel and lock
are concurrency artifacts with no sequential meaning. -/
structure Mempool where
  config : MempoolConfig
  txs : List (String × MempoolTx)
  queue : List MempoolTx
  nonces : List (String × Nat)
deriving Repr, DecidableEq

/-- Context of the environment-dependent primitives the mempool consumes:
`txSize` models `Transaction.Size` (the JSON-encoded length), `txHashHex`
models `Transaction.HashHex`, and `now` models `time.Now()`. -/
structure MpCtx where
  txSize : Transaction → Nat
  txHashHex : Transaction → String
  now : Nat

/-- Gas price the mempool assigns a transaction (`fee / size`, sizes taken
from the context). -/
def gasOf (ctx : MpCtx) (t : Transaction) : Nat := t.Fee / ctx.txSize t

/-- Binary-heap property of the queue under `TxQueue.Less`: no entry has a
higher gas price than its parent. -/
def HeapProp (q : List MempoolTx) : Prop :=
  ∀ j < q.length, j ≠ 0 → gp q j ≤ gp q ((j - 1) / 2)

/-- Embedding of `Mempool.rebuildQueue`: push every entry of the hash map
onto a fresh heap.  The source iterates the Go map in an unspecified order;
the stored list order is the representative used here. -/
def rebuildQueue (mp : Mempool) : Mempool :=
  { mp with queue := (mp.txs.map Prod.snd).foldl heapPush [] }

/-- Embedding of `Mempool.evictLowest` (part_014 lines 225-239).  The
source reads the LAST element of the heap slice (the comment in the source
assumes a sorted slice), deletes it from the hash map when its gas price is
below the new one, and rebuilds the queue. -/
def evictLowest (mp : Mempool) (minGasPrice : Nat) : Bool × Mempool :=
  if mp.queue.length = 0 then (false, mp)
  else
    let lowest := mp.queue.getLastD dummyMTx
    if lowest.GasPrice ≥ minGasPrice then (false, mp)
    else
      let mp := { mp with txs := mdel mp.txs lowest.Hash }
      (true, rebuildQueue mp)

/-- Embedding of the `tx` mempool error values; `Invalid` carries the
verification error returned unchanged by `AddTx`. -/
inductive MpErr
  | Invalid (e : VerifyErr) | TxTooLarge | GasPriceTooLow | DuplicateTx
  | MempoolFull | NonceTooLow
deriving Repr, DecidableEq

/-- Embedding of `Mempool.AddTx` (part_014 lines 72-135).  When the pool is
full the eviction attempt happens before the nonce check, so a rejected
transaction can still leave an eviction behind; the pair result records the
possibly-updated pool. -/
def AddTx (ctx : MpCtx) (mp : Mempool) (t : Transaction) : Option MpErr × Mempool :=
  match t.Verify with
  | some e => (some (.Invalid e), mp)
  | none =>
    if ctx.txSize t > mp.config.MaxTxSize then (some .TxTooLarge, mp)
    else
      let gasPrice := t.Fee / ctx.txSize t
      if gasPrice < mp.config.MinGasPrice then (some .GasPriceTooLow, mp)
      else
        let hash := ctx.txHashHex t
        if (mget mp.txs hash).isSome then (some .DuplicateTx, mp)
        else
          let (evicted, mp) :=
            if mp.txs.length ≥ mp.config.MaxSize then evictLowest mp gasPrice
            else (true, mp)
          if ¬evicted then (some .MempoolFull, mp)
          else if t.Nonce < mgetD mp.nonces t.From 0 then (some .NonceTooLow, mp)
          else
            let mtx : MempoolTx :=
              { Tx := t, Hash := hash, AddedAt := ctx.now, GasPrice := gasPrice,
                Priority := gasPrice }
            let mp := { mp with txs := mset mp.txs hash mtx,
                                queue := heapPush mp.queue mtx }
            let mp :=
              if t.Nonce ≥ mgetD mp.nonces t.From 0 then
                { mp with nonces := mset mp.nonces t.From (add64 t.Nonce 1) }
              else mp
            (none, mp)

/-- Pop loop of `Mempool.ReapMaxTxs`: pop while the queue is non-empty and
fewer than `need` transactions are collected, dropping entries older than
`maxAge`.  `fuel` bounds the iterations; callers pass the queue length. -/
def reapLoop (now maxAge : Nat) :
    Nat → Nat → List MempoolTx → List (String × MempoolTx) → List Transaction →
    List Transaction × List MempoolTx × List (String × MempoolTx)
  | _, _, [], txm, acc => (acc, [], txm)
  | 0, _, queue, txm, acc => (acc, queue, txm)
  | fuel + 1, need, q :: queue, txm, acc =>
    if acc.length < need then
      let (mtx, queue') := heapPop (q :: queue)
      if now - mtx.AddedAt > maxAge then
        reapLoop now maxAge fuel need queue' (mdel txm mtx.Hash) acc
      else
        reapLoop now maxAge fuel need queue' txm (acc ++ [mtx.Tx])
    else (acc, q :: queue, txm)

/-- Embedding of `Mempool.ReapMaxTxs` (part_014 lines 164-195): pop up to
`maxTxs` fresh transactions in heap order (a non-positive argument means
the configured maximum), then push the reaped entries that are still in the
hash map back onto the queue.  Returns the reaped transactions and the
updated pool. -/
def ReapMaxTxs (ctx : MpCtx) (mp : Mempool) (maxTxs : Int) :
    List Transaction × Mempool :=
  let need := if maxTxs ≤ 0 then mp.config.MaxSize else maxTxs.toNat
  let (txs, queue, txm) :=
    reapLoop ctx.now mp.config.MaxTxAge mp.queue.length need mp.queue mp.txs []
  let queue := txs.foldl
    (fun q t =>
      match mget txm (ctx.txHashHex t) with
      | some mtx => heapPush q mtx
      | none => q) queue
  (txs, { mp with txs := txm, queue := queue })

end tx

namespace pos

/-- Stake accumulated over the first `i` entries of a validator list (the
cumulative sums of the spec's stake-weighted walk, in exact arithmetic). -/
def prefixStakes (l : List Validator) (i : Nat) : Nat :=
  ((l.take i).map (fun v => v.TotalStake)).sum

/-- Selection rule stated by index: the first position whose cumulative
stake exceeds `r mod W`, the head of the list when no position does. -/
def specSelect (l : List Validator) (W r : Nat) : Validator :=
  match (List.range l.length).find? (fun i => decide (r % W < prefixStakes l (i + 1))) with
  | some i => l.getD i (NewValidator "" "" 0)
  | none => l.headD (NewValidator "" "" 0)

/-- Selection rule as the claim words it: the modulus is the sum of
`total_stake` over the active list itself. -/
def claimLeader (l : List Validator) (r : Nat) : Option Validator :=
  if l = [] then none
  else some (specSelect l (prefixStakes l l.length) r)

/-- Scenario for the proposer-selection claim: `min_stake = 1`,
`max_validators = 2`, validators of stake 10, 20 and 30 registered in
order, so that the active list holds the top two while the engine's
running total also counts the third. -/
def scenEngine : Engine :=
  match RegisterValidator (NewEngine 1 2) "v1" "pk" 10 with
  | .error _ => NewEngine 1 2
  | .ok e1 =>
    match RegisterValidator e1 "v2" "pk" 20 with
    | .error _ => e1
    | .ok e2 =>
      match RegisterValidator e2 "v3" "pk" 30 with
      | .error _ => e2
      | .ok e3 => e3

/-- Scenario for the signing-bitmap claim: the default parameters with a
window of 10, as in the spec's downtime walkthrough. -/
def scenKeeper : SlashingKeeper :=
  { params := { DefaultSlashingParams with SignedBlocksWindow := 10 }, signingInfo := [] }

/-- Scenario for the slashing claim: self-stake 1, one delegation of 99. -/
def scenValidator : Validator :=
  (NewValidator "v" "pk" 1).AddDelegation "d" 99

end pos

namespace tx

/-- Transfer transaction used by the concrete mempool and chain scenarios. -/
def mkScenTx (fr : String) (fee : Nat) : Transaction :=
  { Typ := "transfer", From := fr, To := "z", Amount := 1, Asset := "GYDS", Fee := fee,
    Nonce := 0, Timestamp := 0, Data := [], Signature := [1], PubKey := [] }

/-- Transfer of 10 GYDS from `A` to `B`, fee 0, used by the
type-independence witness. -/
def scenTxAB : Transaction := { mkScenTx "A" 0 with To := "B", Amount := 10 }

/-- Concrete mempool context: every transaction reports size one (so the
gas price equals the fee) and is identified by its sender. -/
def scenMpCtx : MpCtx :=
  { txSize := fun _ => 1, txHashHex := fun t => t.From, now := 0 }

/-- Empty mempool with capacity three, as in the eviction scenario. -/
def scenMp0 : Mempool :=
  { config := { MaxSize := 3, MaxTxSize := 100, MaxTxAge := 1000, MinGasPrice := 1,
                ReapInterval := 1 },
    txs := [], queue := [], nonces := [] }

/-- The eviction scenario pool: transactions of gas price 10, 5 and 7
admitted in that order into a pool of capacity three. -/
def scenMpFull : Mempool :=
  (AddTx scenMpCtx
    (AddTx scenMpCtx
      (AddTx scenMpCtx scenMp0 (mkScenTx "a" 10)).2
      (mkScenTx "b" 5)).2
    (mkScenTx "c" 7)).2

/-- The tie-break scenario pool: three transactions of equal gas price 5
admitted in the order A, B, C. -/
def scenMpTies : Mempool :=
  (AddTx scenMpCtx
    (AddTx scenMpCtx
      (AddTx scenMpCtx scenMp0 (mkScenTx "A" 5)).2
      (mkScenTx "B" 5)).2
    (mkScenTx "C" 5)).2

end tx

namespace state

/-- Scenario store for the transfer claim: a single account `A` holding
five units of GYDS. -/
def scenStore : StateDB :=
  { accounts := [("A", { NewAccount "A" with Balances := [("GYDS", 5)] })],
    assets := [], dirty := [], root := "" }

end state

namespace chain

/-- Concrete chain context for the block-apply scenario: transaction hashes
are the nonce byte, the header hash is a fixed fresh string, and the Merkle
combiner is the identity on the concatenation. -/
def scenCtx : Ctx :=
  { txHash := fun t => [t.Nonce % 256], headerHash := fun _ => "b1",
    sha := fun l => l, now := 0 }

/-- Genesis placeholder block of the block-apply scenario. -/
def scenGenesis : Block :=
  { Header := { Version := 1, Height := 0, Timestamp := 0, ParentHash := "", TxRoot := "",
                StateRoot := "", ReceiptRoot := "", ValidatorSet := "", Difficulty := 0,
                Nonce := 0, ExtraData := [], GasLimit := 0, GasUsed := 0 },
    Transactions := [], Validator := "", Signature := [] }

/-- Chain head of the block-apply scenario: the genesis indexed under hash
`"g"`, and a state store in which `A` holds 100 GYDS. -/
def scenChain : ChainState :=
  { blocks := [("g", scenGenesis)], heights := [(0, "g")], latestHash := "g",
    latestHeight := 0,
    stateDB := { accounts := [("A", { state.NewAccount "A" with Balances := [("GYDS", 100)] })],
                 assets := [], dirty := [], root := "" } }

/-- Block of the block-apply scenario: its first transaction moves 10 GYDS
from `A` to `B` and applies; its second asks for 1000 GYDS and fails the
balance check.  The transaction root field matches the computed root. -/
def scenBadBlock : Block :=
  { Header := { scenGenesis.Header with Height := 1, ParentHash := "g", TxRoot := "0001" },
    Transactions := [{ tx.mkScenTx "A" 0 with To := "B", Amount := 10, Nonce := 0 },
                     { tx.mkScenTx "A" 0 with To := "C", Amount := 1000, Nonce := 1 }],
    Validator := "", Signature := [] }

end chain

section MapLemmas

theorem mget_mset_self (l : List (String × α)) (k : String) (v : α) :
    mget (mset l k v) k = some v := by
  induction l with
  | nil => simp [mset, mget]
  | cons p rest ih =>
    obtain ⟨k', v'⟩ := p
    by_cases h : k' = k <;> simp [mset, mget, h, ih]

theorem mget_mset_ne (l : List (String × α)) (k k' : String) (v : α) (h : k' ≠ k) :
    mget (mset l k v) k' = mget l k' := by
  induction l with
  | nil => simp [mset, mget, Ne.symm h]
  | cons p rest ih =>
    obtain ⟨k0, v0⟩ := p
    by_cases h0 : k0 = k
    · subst h0
      simp [mset, mget, Ne.symm h]
    · by_cases h1 : k0 = k'
      · subst h1
        simp [mset, mget, h0, h]
      · simp [mset, mget, h0, h1, ih]

end MapLemmas

namespace pow

theorem halveLoop_clamp (minR : Nat) :
    ∀ (n base : Nat),
      (if halveLoop minR n base < minR then minR else halveLoop minR n base) =
        max minR (base >>> n) := by
  intro n
  induction n with
  | zero =>
    intro base
    simp only [halveLoop, Nat.shiftRight_zero]
    split <;> omega
  | succ n ih =>
    intro base
    by_cases h : base > minR
    · have : base >>> (n + 1) = (base / 2) >>> n := by
        rw [Nat.add_comm, Nat.shiftRight_add, Nat.shiftRight_one]
      rw [this]
      simpa [halveLoop, h] using ih (base / 2)
    · have hle : base >>> (n + 1) ≤ base := by
        rw [Nat.shiftRight_eq_div_pow]
        exact Nat.div_le_self _ _
      simp only [halveLoop, h, if_false]
      split <;> omega

end pow

/-- C9: for every distributor configuration and every height, the iterative
halving loop of `CalculateBlockReward` with its early stop at the floor
computes exactly the closed form `max(min_reward, base_reward >> (h /
halving_blocks))`. -/
theorem calculateBlockReward_eq_rewardSpec (d : pow.RewardDistributor) (height : Nat) :
    pow.CalculateBlockReward d height = pow.rewardSpec d height := by
  unfold pow.CalculateBlockReward pow.rewardSpec
  exact pow.halveLoop_clamp d.minReward (height / d.halving) d.baseReward

/-- C1: evaluation of `Chain.AddBlock` at a block whose first transaction
applies and whose second fails the balance check.  The call returns the
insufficient-balance error, yet the state store has been mutated: the
sender's balance dropped from 100 to 90 (and its nonce advanced, and a
receiver account now exists), contradicting the specified
state-is-unmodified contract. -/
theorem addBlock_error_leaves_state_mutated :
    (chain.AddBlock chain.scenCtx chain.scenChain chain.scenBadBlock).1 =
      some chain.Err.InsufficientBalance ∧
    (chain.AddBlock chain.scenCtx chain.scenChain chain.scenBadBlock).2.stateDB.GetBalance
      "A" "GYDS" = 90 ∧
    ((chain.AddBlock chain.scenCtx chain.scenChain chain.scenBadBlock).2.stateDB.GetAccount
      "B").isSome = true ∧
    chain.scenChain.stateDB.GetBalance "A" "GYDS" = 100 ∧
    chain.scenChain.stateDB.GetAccount "B" = none := by
  decide

/-- C4: evaluation of `Validator.Slash` at a validator with self-stake 1,
one delegation of 99 and total stake 100, slashed by 5 percent.  The slash
amount is 5; after the slash the total stake is 95 but self-stake plus
delegations is 96, because the source zeroes the self-stake before using
`TotalStake - SelfStake` as the pro-rata divisor (and floors the quotient),
so only 3 of the remaining 4 leave the delegation. -/
theorem slash_breaks_stake_invariant :
    pos.scenValidator.TotalStake =
      pos.scenValidator.SelfStake +
        (pos.scenValidator.Delegations.map Prod.snd).sum ∧
    (pos.scenValidator.Slash 5 "double_sign" 7 0).2 = 5 ∧
    (pos.scenValidator.Slash 5 "double_sign" 7 0).1.TotalStake = 95 ∧
    (pos.scenValidator.Slash 5 "double_sign" 7 0).1.SelfStake = 0 ∧
    (pos.scenValidator.Slash 5 "double_sign" 7 0).1.Delegations = [("d", 96)] ∧
    (pos.scenValidator.Slash 5 "double_sign" 7 0).1.TotalStake ≠
      (pos.scenValidator.Slash 5 "double_sign" 7 0).1.SelfStake +
        ((pos.scenValidator.Slash 5 "double_sign" 7 0).1.Delegations.map Prod.snd).sum := by
  decide

/-- C5: evaluation of the signing-info bookkeeping.  A freshly created
record already violates the invariant (counter 0 against a window of 10
false slots), and after two `SignBlock` misses at heights 0 and 1 the
counter holds 1 while the bitmap still has 10 false entries, because the
source decrements the counter whenever the old slot was false — also for
slots never yet written. -/
theorem signBlock_counter_ne_bitmap_false_count :
    ((pos.getOrCreateSigningInfo pos.scenKeeper "v").1.MissedBlocksCounter = 0 ∧
      (pos.getOrCreateSigningInfo pos.scenKeeper "v").1.SignedBlocksBitmap.count false = 10) ∧
    (mget (pos.SignBlock (pos.SignBlock pos.scenKeeper "v" 0 false) "v" 1 false).signingInfo
        "v").map
      (fun i => (i.MissedBlocksCounter, i.SignedBlocksBitmap.count false)) =
      some (1, 10) := by
  decide

/-- C6: evaluation of `Mempool.AddTx` at a full pool whose heap slice is
[10, 5, 7] by gas price.  A new transaction of gas price 6 is rejected with
the mempool-full error although the pool's minimum gas price 5 is strictly
below 6, because `evictLowest` inspects only the last element of the heap
slice (7 here), which need not be the minimum. -/
theorem addTx_full_rejects_despite_lower_minimum :
    tx.scenMpFull.txs.length = tx.scenMpFull.config.MaxSize ∧
    tx.scenMpFull.queue.map tx.MempoolTx.GasPrice = [10, 5, 7] ∧
    (tx.scenMpFull.queue.map tx.MempoolTx.GasPrice).foldr min 10 = 5 ∧
    (tx.AddTx tx.scenMpCtx tx.scenMpFull (tx.mkScenTx "d" 6)).1 = some tx.MpErr.MempoolFull ∧
    (tx.AddTx tx.scenMpCtx tx.scenMpFull (tx.mkScenTx "d" 6)).2.txs.length = 3 := by
  decide

/-- C2 counterexample: with `min_stake = 1`, `max_validators = 2` and
validators of stakes 10, 20, 30, the active list is [v3, v2] but the
engine's modulus is the full 60.  At round 81 `SelectLeader` returns v3
while the claim's walk (T = 50, target = 81 mod 50 = 31) designates v2. -/
theorem selectLeader_ne_claim_walk :
    pos.scenEngine.validatorList.map pos.Validator.Address = ["v3", "v2"] ∧
    pos.scenEngine.totalStake = 60 ∧
    ((pos.SelectLeader pos.scenEngine 81).toOption.map pos.Validator.Address = some "v3") ∧
    ((pos.claimLeader pos.scenEngine.validatorList 81).map pos.Validator.Address =
      some "v2") ∧
    ((pos.SelectLeader pos.scenEngine 81).toOption.map pos.Validator.Address ≠
      (pos.claimLeader pos.scenEngine.validatorList 81).map pos.Validator.Address) := by
  decide

/-- C3 counterexample: a transfer that fails the balance check still
creates the missing receiver account, so the store is not completely
unchanged on failure. -/
theorem transfer_insufficient_creates_receiver :
    (state.scenStore.Transfer "A" "B" "GYDS" 10).1 = some state.Err.InsufficientBalance ∧
    mget state.scenStore.accounts "B" = none ∧
    mget (state.scenStore.Transfer "A" "B" "GYDS" 10).2.accounts "B" =
      some (state.NewAccount "B") ∧
    (state.scenStore.Transfer "A" "B" "GYDS" 10).2 ≠ state.scenStore := by
  decide

/-- C7 counterexample: three transactions of equal gas price admitted in
the order A, B, C are reaped in the order A, C, B — the transaction
admitted earlier (B) is returned after the one admitted later (C), so the
FIFO tie-break does not hold. -/
theorem reap_breaks_fifo_on_equal_gas_price :
    tx.scenMpTies.queue.map tx.MempoolTx.GasPrice = [5, 5, 5] ∧
    (tx.ReapMaxTxs tx.scenMpCtx tx.scenMpTies 3).1.map tx.Transaction.From =
      ["A", "C", "B"] := by
  decide

namespace state

theorem Account.getBalance_setBalance_self (a : Account) (x : String) (v : Nat) :
    (a.SetBalance x v).GetBalance x = v := by
  simp [Account.SetBalance, Account.GetBalance, mgetD, mget_mset_self]

theorem Account.getBalance_setBalance_ne (a : Account) (x y : String) (v : Nat) (h : y ≠ x) :
    (a.SetBalance x v).GetBalance y = a.GetBalance y := by
  simp [Account.SetBalance, Account.GetBalance, mgetD, mget_mset_ne _ _ _ _ h]

theorem NewAccount_getBalance (t x : String) : (NewAccount t).GetBalance x = 0 := rfl

end state

/-- C3 (amended): `StateDB.Transfer` fails with AccountNotFound when the
sender is missing (store unchanged) and with InsufficientBalance when the
sender's balance is below the amount; on any failure no balance changes and
no dirty bit is set, but when the sender exists a missing receiver account
has already been created (with empty balances) by the time the balance
check fails; on success with distinct endpoints both balances update and
both dirty bits are set. -/
theorem transfer_characterization (s : state.StateDB) (f t a : String) (amt : Nat) :
    (mget s.accounts f = none →
      s.Transfer f t a amt = (some state.Err.AccountNotFound, s)) ∧
    (∀ acc, mget s.accounts f = some acc → acc.GetBalance a < amt →
      (s.Transfer f t a amt).1 = some state.Err.InsufficientBalance ∧
      (∀ x y, (s.Transfer f t a amt).2.GetBalance x y = s.GetBalance x y) ∧
      (s.Transfer f t a amt).2.dirty = s.dirty ∧
      (mget s.accounts t = none →
        mget (s.Transfer f t a amt).2.accounts t = some (state.NewAccount t))) ∧
    (∀ acc, mget s.accounts f = some acc → ¬ acc.GetBalance a < amt → f ≠ t →
      (s.Transfer f t a amt).1 = none ∧
      (s.Transfer f t a amt).2.GetBalance f a = sub64 (s.GetBalance f a) amt ∧
      (s.Transfer f t a amt).2.GetBalance t a = add64 (s.GetBalance t a) amt ∧
      mget (s.Transfer f t a amt).2.dirty f = some true ∧
      mget (s.Transfer f t a amt).2.dirty t = some true) := by
  refine ⟨fun hnone => ?_, fun acc hacc hlt => ?_, fun acc hacc hge hft => ?_⟩
  · simp [state.StateDB.Transfer, hnone]
  · rcases hrecv : mget s.accounts t with _ | racc
    · refine ⟨?_, fun x y => ?_, ?_, fun _ => ?_⟩
      · simp [state.StateDB.Transfer, hacc, hlt, hrecv]
      · by_cases hx : x = t
        · subst hx
          simp [state.StateDB.Transfer, hacc, hlt, hrecv, state.StateDB.GetBalance,
            state.StateDB.GetAccount, mget_mset_self, state.NewAccount_getBalance]
        · simp [state.StateDB.Transfer, hacc, hlt, hrecv, state.StateDB.GetBalance,
            state.StateDB.GetAccount, mget_mset_ne _ _ _ _ hx]
      · simp [state.StateDB.Transfer, hacc, hlt, hrecv]
      · simp [state.StateDB.Transfer, hacc, hlt, hrecv, mget_mset_self]
    · refine ⟨?_, fun x y => ?_, ?_, fun h => ?_⟩
      · simp [state.StateDB.Transfer, hacc, hlt, hrecv]
      · simp [state.StateDB.Transfer, hacc, hlt, hrecv]
      · simp [state.StateDB.Transfer, hacc, hlt, hrecv]
      · exact absurd h (by simp)
  · have hft' : t ≠ f := Ne.symm hft
    rcases hrecv : mget s.accounts t with _ | racc <;>
      refine ⟨?_, ?_, ?_, ?_, ?_⟩ <;>
        simp [state.StateDB.Transfer, hacc, hge, hrecv, mget_mset_self, mget_mset_ne,
          hft, hft', state.StateDB.GetBalance, state.StateDB.GetAccount,
          state.Account.getBalance_setBalance_self, state.NewAccount_getBalance]

/-- Witness for the amended transfer characterization: instantiated at the
store where `A` holds five GYDS, an insufficient transfer of ten to the
missing `B` reports the insufficiency, leaves the dirty set empty, and
creates `B`. -/
theorem transfer_characterization_witness :
    (state.scenStore.Transfer "A" "B" "GYDS" 10).1 = some state.Err.InsufficientBalance ∧
    (state.scenStore.Transfer "A" "B" "GYDS" 10).2.dirty = state.scenStore.dirty ∧
    mget (state.scenStore.Transfer "A" "B" "GYDS" 10).2.accounts "B" =
      some (state.NewAccount "B") := by
  have h := (transfer_characterization state.scenStore "A" "B" "GYDS" 10).2.1
    ({ state.NewAccount "A" with Balances := [("GYDS", 5)] }) (by decide) (by decide)
  exact ⟨h.1, h.2.2.1, h.2.2.2 (by decide)⟩

namespace state

theorem Account.staked_setBalance (a : Account) (x : String) (v : Nat) :
    (a.SetBalance x v).Staked = a.Staked := rfl

theorem Account.staked_incrementNonce (a : Account) :
    a.IncrementNonce.Staked = a.Staked := rfl

theorem Account.getBalance_incrementNonce (a : Account) (x : String) :
    a.IncrementNonce.GetBalance x = a.GetBalance x := rfl

end state

/-- C10: `Chain.processTransaction` never consults the transaction type:
replacing the type field by any string (transfer, stake, unstake, mint,
burn, create_asset, update_oracle alike) leaves the result unchanged, and
every successful application moves the amount from the sender to the
account named in `to` (for a burn that passes verification, `to` is the
empty string, so the empty-string account is credited), debits the fee,
increments the sender nonce, and changes no staked balance and no asset
record (hence no total_supply). -/
theorem processTransaction_ignores_type (s : state.StateDB) (t : tx.Transaction)
    (ty : String) :
    chain.processTransaction s { t with Typ := ty } = chain.processTransaction s t ∧
    ((chain.processTransaction s t).1 = none →
      (chain.processTransaction s t).2.assets = s.assets ∧
      (∀ x, ((chain.processTransaction s t).2.GetAccount x).elim 0 state.Account.Staked =
        (s.GetAccount x).elim 0 state.Account.Staked) ∧
      (t.From ≠ t.To →
        (chain.processTransaction s t).2.GetBalance t.From t.Asset =
          sub64 (sub64 (s.GetBalance t.From t.Asset) t.Amount) t.Fee ∧
        (chain.processTransaction s t).2.GetBalance t.To t.Asset =
          add64 (s.GetBalance t.To t.Asset) t.Amount ∧
        ((chain.processTransaction s t).2.GetAccount t.From).elim 0 state.Account.Nonce =
          add64 ((s.GetAccount t.From).elim 0 state.Account.Nonce) 1)) := by
  constructor
  · rfl
  · intro hok
    rcases hs : mget s.accounts t.From with _ | sender
    · simp [chain.processTransaction, state.StateDB.GetAccount, hs] at hok
    · have hs' : s.GetAccount t.From = some sender := hs
      by_cases hb : sender.GetBalance t.Asset < add64 t.Amount t.Fee
      · simp [chain.processTransaction, state.StateDB.GetAccount, hs, hb] at hok
      · refine ⟨?_, fun x => ?_, fun hft => ⟨?_, ?_, ?_⟩⟩
        · simp [chain.processTransaction, state.StateDB.GetAccount, hs, hb,
            state.StateDB.SetAccount]
        · by_cases hxt : x = t.To
          · rcases hr : mget s.accounts t.To with _ | racc <;>
              simp [chain.processTransaction, state.StateDB.GetAccount, hs, hb, hr, hxt,
                state.StateDB.SetAccount, mget_mset_self, state.Account.staked_setBalance,
                state.NewAccount]
          · by_cases hxf : x = t.From
            · subst hxf
              simp [chain.processTransaction, state.StateDB.GetAccount, hs, hb,
                state.StateDB.SetAccount, mget_mset_self, mget_mset_ne _ _ _ _ hxt,
                state.Account.staked_setBalance, state.Account.staked_incrementNonce]
            · simp [chain.processTransaction, state.StateDB.GetAccount, hs, hb,
                state.StateDB.SetAccount, mget_mset_ne _ _ _ _ hxt,
                mget_mset_ne _ _ _ _ hxf]
        · simp [chain.processTransaction, state.StateDB.GetAccount,
            state.StateDB.GetBalance, hs, hb, state.StateDB.SetAccount,
            mget_mset_ne _ _ _ _ hft, mget_mset_self,
            state.Account.getBalance_incrementNonce,
            state.Account.getBalance_setBalance_self]
        · rcases hr : mget s.accounts t.To with _ | racc <;>
            simp [chain.processTransaction, state.StateDB.GetAccount,
              state.StateDB.GetBalance, hs, hb, hr, state.StateDB.SetAccount,
              mget_mset_self, state.Account.getBalance_setBalance_self,
              state.NewAccount_getBalance]
        · simp [chain.processTransaction, state.StateDB.GetAccount, hs, hb,
            state.StateDB.SetAccount, mget_mset_ne _ _ _ _ hft, mget_mset_self,
            state.Account.IncrementNonce, state.Account.SetBalance]

/-- Witness for the type-independence of transaction processing: on the
scenario store where `A` holds 100 GYDS, the 10-GYDS transfer `scenTxAB`
processes identically when its type field is rewritten to `"stake"`, and
the receiver balance lands at 10. -/
theorem processTransaction_ignores_type_witness :
    chain.processTransaction chain.scenChain.stateDB { tx.scenTxAB with Typ := "stake" } =
      chain.processTransaction chain.scenChain.stateDB tx.scenTxAB ∧
    (chain.processTransaction chain.scenChain.stateDB tx.scenTxAB).2.GetBalance
        tx.scenTxAB.To tx.scenTxAB.Asset =
      add64 (chain.scenChain.stateDB.GetBalance tx.scenTxAB.To tx.scenTxAB.Asset)
        tx.scenTxAB.Amount ∧
    add64 (chain.scenChain.stateDB.GetBalance tx.scenTxAB.To tx.scenTxAB.Asset)
        tx.scenTxAB.Amount = 10 := by
  have h := processTransaction_ignores_type chain.scenChain.stateDB tx.scenTxAB "stake"
  exact ⟨h.1, ((h.2 (by decide)).2.2 (by decide)).2.1, by decide⟩

namespace pos

theorem prefixStakes_cons (v : Validator) (l : List Validator) (i : Nat) :
    prefixStakes (v :: l) (i + 1) = v.TotalStake + prefixStakes l i := by
  simp [prefixStakes]

theorem leaderWalk_spec (target : Nat) :
    ∀ (l : List Validator) (c : Nat),
      c + ((l.map (fun v => v.TotalStake)).sum) < w64 →
      leaderWalk c target l =
        ((List.range l.length).find?
            (fun i => decide (target < c + prefixStakes l (i + 1)))).map
          (fun i => l.getD i (NewValidator "" "" 0)) := by
  intro l
  induction l with
  | nil => intro c _; simp [leaderWalk]
  | cons v rest ih =>
    intro c hsum
    have hbound : c + v.TotalStake < w64 := by
      have := (rest.map (fun v => v.TotalStake)).sum
      simp only [List.map_cons, List.sum_cons] at hsum
      omega
    have hadd : add64 c v.TotalStake = c + v.TotalStake := by
      simpa [add64] using Nat.mod_eq_of_lt hbound
    have hsum' : (c + v.TotalStake) + ((rest.map (fun v => v.TotalStake)).sum) < w64 := by
      simp only [List.map_cons, List.sum_cons] at hsum
      omega
    simp only [leaderWalk, hadd]
    rw [List.length_cons, List.range_succ_eq_map]
    by_cases hc : c + v.TotalStake > target
    · have h0 : target < c + prefixStakes (v :: rest) (0 + 1) := by
        simpa [prefixStakes_cons, prefixStakes] using hc
      simp [hc, List.find?_cons, h0]
    · have h0 : ¬ target < c + prefixStakes (v :: rest) (0 + 1) := by
        simpa [prefixStakes_cons, prefixStakes] using hc
      rw [if_neg hc, ih (c + v.TotalStake) hsum']
      simp only [List.find?_cons, decide_eq_true_eq, h0, if_false]
      rw [List.find?_map]
      rcases hfind : (List.range rest.length).find?
          (fun i => decide (target < c + v.TotalStake + prefixStakes rest (i + 1))) with _ | i
      · have : ((List.range rest.length).find?
            ((fun i => decide (target < c + prefixStakes (v :: rest) (i + 1))) ∘ Nat.succ)) =
            none := by
          rw [← hfind]
          congr 1
          funext i
          simp [Function.comp, prefixStakes_cons, Nat.add_assoc]
        simp [h0, this, hfind]
      · have : ((List.range rest.length).find?
            ((fun i => decide (target < c + prefixStakes (v :: rest) (i + 1))) ∘ Nat.succ)) =
            some i := by
          rw [← hfind]
          congr 1
          funext i
          simp [Function.comp, prefixStakes_cons, Nat.add_assoc]
        simp [h0, this, hfind]

end pos

/-- C2 (amended): for every engine state with a non-empty active validator
list, `SelectLeader(r)` performs the deterministic stake-weighted walk with
the modulus taken from the engine's running `totalStake` — the sum over all
registered validators, not over the active list — returning the first
validator in the active order whose cumulative stake exceeds `r mod
totalStake` and falling back to the head of the list when the walk exhausts
it; being a pure function of the engine state and the round, it returns the
same validator on every call with the same active set and round. -/
theorem selectLeader_amended (e : pos.Engine) (r : Nat)
    (hne : e.validatorList ≠ [])
    (hsum : ((e.validatorList.map (fun v => v.TotalStake)).sum) < w64) :
    pos.SelectLeader e r = .ok (pos.specSelect e.validatorList e.totalStake r) := by
  have hw := pos.leaderWalk_spec (r % e.totalStake) e.validatorList 0 (by simpa using hsum)
  simp only [pos.SelectLeader, pos.specSelect, if_neg hne]
  rw [hw]
  rcases hfind : (List.range e.validatorList.length).find?
      (fun i => decide (r % e.totalStake < 0 + pos.prefixStakes e.validatorList (i + 1)))
    with _ | i
  · have : (List.range e.validatorList.length).find?
        (fun i => decide (r % e.totalStake < pos.prefixStakes e.validatorList (i + 1))) =
        none := by
      rw [← hfind]
      congr 1
      funext i
      simp
    simp [this]
  · have : (List.range e.validatorList.length).find?
        (fun i => decide (r % e.totalStake < pos.prefixStakes e.validatorList (i + 1))) =
        some i := by
      rw [← hfind]
      congr 1
      funext i
      simp
    simp [this]

/-- Witness for the amended proposer-selection rule at the concrete engine
with registered stakes 10, 20, 30 and round 81. -/
theorem selectLeader_amended_witness :
    pos.SelectLeader pos.scenEngine 81 =
      .ok (pos.specSelect pos.scenEngine.validatorList pos.scenEngine.totalStake 81) :=
  selectLeader_amended pos.scenEngine 81 (by decide) (by decide)

namespace tx

theorem lessQ_eq_true (q : List MempoolTx) (i j : Nat) :
    lessQ q i j = true ↔ gp q j < gp q i := by
  simp [lessQ]

theorem length_swapQ (q : List MempoolTx) (i j : Nat) :
    (swapQ q i j).length = q.length := by
  simp [swapQ]

theorem getD_mem_of_lt (q : List MempoolTx) (i : Nat) (h : i < q.length) :
    q.getD i dummyMTx ∈ q := by
  rw [List.getD_eq_getElem q dummyMTx h]
  exact List.getElem_mem h

theorem gp_eq_getD (q : List MempoolTx) (i : Nat) :
    gp q i = (q.getD i dummyMTx).GasPrice := by
  cases h : q[i]? <;>
    simp [gp, List.get?_eq_getElem?, List.getD_eq_getElem?_getD, h, dummyMTx]

theorem gp_set_self (q : List MempoolTx) (i : Nat) (a : MempoolTx) (h : i < q.length) :
    gp (q.set i a) i = a.GasPrice := by
  simp [gp, List.get?_eq_getElem?, List.getElem?_set_self h]

theorem gp_set_ne (q : List MempoolTx) (i k : Nat) (a : MempoolTx) (h : i ≠ k) :
    gp (q.set i a) k = gp q k := by
  simp [gp, List.get?_eq_getElem?, List.getElem?_set_ne h]

theorem gp_swapQ_at_snd (q : List MempoolTx) (i j : Nat) (hj : j < q.length) :
    gp (swapQ q i j) j = gp q i := by
  rw [swapQ, gp_set_self _ _ _ (by simpa using hj), gp_eq_getD]

theorem gp_swapQ_at_fst (q : List MempoolTx) (i j : Nat) (hi : i < q.length) (hij : i ≠ j) :
    gp (swapQ q i j) i = gp q j := by
  rw [swapQ, gp_set_ne _ _ _ _ (Ne.symm hij), gp_set_self _ _ _ hi, gp_eq_getD]

theorem gp_swapQ_other (q : List MempoolTx) (i j k : Nat) (hki : k ≠ i) (hkj : k ≠ j) :
    gp (swapQ q i j) k = gp q k := by
  rw [swapQ, gp_set_ne _ _ _ _ (Ne.symm hkj), gp_set_ne _ _ _ _ (Ne.symm hki)]

theorem mem_swapQ (q : List MempoolTx) (i j : Nat) (hi : i < q.length) (hj : j < q.length) :
    ∀ x ∈ swapQ q i j, x ∈ q := by
  intro x hx
  rcases List.mem_or_eq_of_mem_set hx with hx1 | rfl
  · rcases List.mem_or_eq_of_mem_set hx1 with hx2 | rfl
    · exact hx2
    · exact getD_mem_of_lt q j hj
  · exact getD_mem_of_lt q i hi

theorem get?_swapQ_other (q : List MempoolTx) (i j k : Nat) (hki : k ≠ i) (hkj : k ≠ j) :
    (swapQ q i j).get? k = q.get? k := by
  simp [swapQ, List.get?_eq_getElem?, List.getElem?_set_ne (Ne.symm hkj),
    List.getElem?_set_ne (Ne.symm hki)]

theorem gp_le_gp_zero (q : List MempoolTx) (hh : HeapProp q) :
    ∀ j, j < q.length → gp q j ≤ gp q 0 := by
  intro j
  induction j using Nat.strong_induction_on with
  | _ j ih =>
    intro hj
    by_cases h0 : j = 0
    · subst h0; exact le_refl _
    · exact le_trans (hh j hj h0) (ih ((j - 1) / 2) (by omega) (by omega))

theorem mem_gasPrice_le_root (q : List MempoolTx) (hh : HeapProp q) :
    ∀ x ∈ q, x.GasPrice ≤ gp q 0 := by
  intro x hx
  obtain ⟨i, hi, hget⟩ := List.mem_iff_getElem.mp hx
  have hgx : gp q i = x.GasPrice := by
    simp [gp, List.get?_eq_getElem?, List.getElem?_eq_getElem hi, hget]
  rw [← hgx]
  exact gp_le_gp_zero q hh i hi

end tx

namespace tx

theorem heapDownGo_restores :
    ∀ (fuel : Nat) (q : List MempoolTx) (i n : Nat),
      n ≤ q.length → n - i ≤ fuel →
      (∀ k, k < n → k ≠ 0 → (k - 1) / 2 ≠ i → gp q k ≤ gp q ((k - 1) / 2)) →
      (i ≠ 0 → ∀ k, k < n → (k - 1) / 2 = i → gp q k ≤ gp q ((i - 1) / 2)) →
      (∀ k, k < n → k ≠ 0 →
        gp (heapDownGo fuel q i n) k ≤ gp (heapDownGo fuel q i n) ((k - 1) / 2)) ∧
      (∀ x ∈ heapDownGo fuel q i n, x ∈ q) ∧
      (heapDownGo fuel q i n).length = q.length ∧
      (∀ k, n ≤ k → (heapDownGo fuel q i n).get? k = q.get? k) := by
  intro fuel
  induction fuel with
  | zero =>
    intro q i n hn hfuel h1 h2
    exact ⟨fun k hk hk0 => h1 k hk hk0 (by omega), fun x hx => hx, rfl, fun k _ => rfl⟩
  | succ fuel ih =>
    intro q i n hn hfuel h1 h2
    have step : ∀ j, (j - 1) / 2 = i → i < j → j < n →
        gp q (2 * i + 1) ≤ gp q j → (2 * i + 2 < n → gp q (2 * i + 2) ≤ gp q j) →
        gp q i < gp q j →
        (∀ k, k < n → k ≠ 0 →
          gp (heapDownGo fuel (swapQ q i j) j n) k ≤
            gp (heapDownGo fuel (swapQ q i j) j n) ((k - 1) / 2)) ∧
        (∀ x ∈ heapDownGo fuel (swapQ q i j) j n, x ∈ q) ∧
        (heapDownGo fuel (swapQ q i j) j n).length = q.length ∧
        (∀ k, n ≤ k → (heapDownGo fuel (swapQ q i j) j n).get? k = q.get? k) := by
      intro j hpar hij hjn hm1 hm2 hless
      have hiln : i < n := lt_trans hij hjn
      have hil : i < q.length := lt_of_lt_of_le hiln hn
      have hjl : j < q.length := lt_of_lt_of_le hjn hn
      have hchild : j = 2 * i + 1 ∨ j = 2 * i + 2 := by omega
      have h1' : ∀ k, k < n → k ≠ 0 → (k - 1) / 2 ≠ j →
          gp (swapQ q i j) k ≤ gp (swapQ q i j) ((k - 1) / 2) := by
        intro k hk hk0 hkpj
        by_cases hki : k = i
        · subst hki
          have hk0' : k ≠ 0 := hk0
          have hpk : (k - 1) / 2 ≠ k := by omega
          have hpkj : (k - 1) / 2 ≠ j := by omega
          rw [gp_swapQ_at_fst q k j hil hij.ne, gp_swapQ_other q k j _ hpk hpkj]
          exact h2 hk0 j hjn hpar
        · by_cases hkj : k = j
          · subst hkj
            rw [hpar, gp_swapQ_at_snd q i k hjl, gp_swapQ_at_fst q i k hil hij.ne]
            exact le_of_lt hless
          · by_cases hpi : (k - 1) / 2 = i
            · have hsib : k = 2 * i + 1 ∨ k = 2 * i + 2 := by omega
              rw [hpi, gp_swapQ_other q i j k (Ne.symm (by omega)) hkj,
                gp_swapQ_at_fst q i j hil hij.ne]
              rcases hsib with hs | hs
              · rw [hs]; exact hm1
              · rw [hs]; exact hm2 (hs ▸ hk)
            · have hpj : (k - 1) / 2 ≠ j := hkpj
              rw [gp_swapQ_other q i j k hki hkj, gp_swapQ_other q i j _ hpi hpj]
              exact h1 k hk hk0 hpi
      have h2' : j ≠ 0 → ∀ k, k < n → (k - 1) / 2 = j →
          gp (swapQ q i j) k ≤ gp (swapQ q i j) ((j - 1) / 2) := by
        intro _ k hk hkp
        have hkgt : j < k := by omega
        have hki : k ≠ i := by omega
        have hkj : k ≠ j := by omega
        rw [hpar, gp_swapQ_at_fst q i j hil hij.ne, gp_swapQ_other q i j k hki hkj]
        have hkk := h1 k hk (by omega) (by omega)
        rwa [hkp] at hkk
      have hres := ih (swapQ q i j) j n (by rw [length_swapQ]; exact hn) (by omega) h1' h2'
      refine ⟨hres.1, fun x hx => mem_swapQ q i j hil hjl x (hres.2.1 x hx), ?_, ?_⟩
      · rw [hres.2.2.1, length_swapQ]
      · intro k hk
        rw [hres.2.2.2 k hk, get?_swapQ_other q i j k (by omega) (by omega)]
    simp only [heapDownGo]
    by_cases hc : 2 * i + 1 < n
    · rw [if_pos hc]
      by_cases hcc : 2 * i + 2 < n ∧ lessQ q (2 * i + 2) (2 * i + 1) = true
      · rw [if_pos hcc]
        have hml : gp q (2 * i + 1) < gp q (2 * i + 2) := (lessQ_eq_true q _ _).mp hcc.2
        by_cases hless : lessQ q (2 * i + 2) i = true
        · rw [if_pos hless]
          exact step (2 * i + 2) (by omega) (by omega) hcc.1 (le_of_lt hml)
            (fun _ => le_refl _) ((lessQ_eq_true q _ _).mp hless)
        · rw [if_neg hless]
          have hge : ¬ gp q i < gp q (2 * i + 2) := fun h =>
            hless ((lessQ_eq_true q _ _).mpr h)
          refine ⟨fun k hk hk0 => ?_, fun x hx => hx, rfl, fun k _ => rfl⟩
          by_cases hpi : (k - 1) / 2 = i
          · have hsib : k = 2 * i + 1 ∨ k = 2 * i + 2 := by omega
            rw [hpi]
            rcases hsib with hs | hs <;> rw [hs] <;> omega
          · exact h1 k hk hk0 hpi
      · rw [if_neg hcc]
        have hm21 : 2 * i + 2 < n → gp q (2 * i + 2) ≤ gp q (2 * i + 1) := by
          intro h2n
          by_contra hlt
          exact hcc ⟨h2n, (lessQ_eq_true q _ _).mpr (by omega)⟩
        by_cases hless : lessQ q (2 * i + 1) i = true
        · rw [if_pos hless]
          exact step (2 * i + 1) (by omega) (by omega) hc (le_refl _) hm21
            ((lessQ_eq_true q _ _).mp hless)
        · rw [if_neg hless]
          have hge : ¬ gp q i < gp q (2 * i + 1) := fun h =>
            hless ((lessQ_eq_true q _ _).mpr h)
          refine ⟨fun k hk hk0 => ?_, fun x hx => hx, rfl, fun k _ => rfl⟩
          by_cases hpi : (k - 1) / 2 = i
          · have hsib : k = 2 * i + 1 ∨ k = 2 * i + 2 := by omega
            rw [hpi]
            rcases hsib with hs | hs
            · rw [hs]; omega
            · rw [hs]
              have := hm21 (hs ▸ hk)
              omega
          · exact h1 k hk hk0 hpi
    · rw [if_neg hc]
      refine ⟨fun k hk hk0 => ?_, fun x hx => hx, rfl, fun k _ => rfl⟩
      exact h1 k hk hk0 (by omega)

end tx

theorem getLastD_eq_getD (l : List α) (d : α) : l.getLastD d = l.getD (l.length - 1) d := by
  induction l with
  | nil => rfl
  | cons a t ih =>
    rcases t with _ | ⟨b, t'⟩
    · rfl
    · simp only [List.getLastD_cons] at *
      rw [ih]
      simp [List.getD_cons_succ]

namespace tx

theorem heapPop_spec (q : List MempoolTx) (hq : q ≠ []) (hh : HeapProp q) :
    (heapPop q).1 ∈ q ∧ (heapPop q).1.GasPrice = gp q 0 ∧
    HeapProp (heapPop q).2 ∧ (∀ x ∈ (heapPop q).2, x ∈ q) := by
  have hlen : 0 < q.length := List.length_pos.mpr hq
  have hnlt : q.length - 1 < q.length := by omega
  have h1 : ∀ k, k < q.length - 1 → k ≠ 0 → (k - 1) / 2 ≠ 0 →
      gp (swapQ q 0 (q.length - 1)) k ≤ gp (swapQ q 0 (q.length - 1)) ((k - 1) / 2) := by
    intro k hk hk0 hkp
    rw [gp_swapQ_other q 0 _ k hk0 (by omega), gp_swapQ_other q 0 _ _ hkp (by omega)]
    exact hh k (by omega) hk0
  have hres := heapDownGo_restores (q.length - 1) (swapQ q 0 (q.length - 1)) 0
    (q.length - 1) (by rw [length_swapQ]; omega) (by omega) h1 (fun h => absurd rfl h)
  have hlen2 : (heapDownGo (q.length - 1) (swapQ q 0 (q.length - 1)) 0
      (q.length - 1)).length = q.length := by
    rw [hres.2.2.1, length_swapQ]
  have hget : (heapDownGo (q.length - 1) (swapQ q 0 (q.length - 1)) 0
      (q.length - 1)).get? (q.length - 1) = some (q.getD 0 dummyMTx) := by
    rw [hres.2.2.2 (q.length - 1) (le_refl _)]
    show (swapQ q 0 (q.length - 1)).get? (q.length - 1) = _
    simp only [swapQ, List.get?_eq_getElem?]
    rw [List.getElem?_set_self (by rw [List.length_set]; exact hnlt)]
  have hfst : (heapPop q).1 = q.getD 0 dummyMTx := by
    simp only [heapPop, heapDown, getLastD_eq_getD, hlen2]
    rw [List.getD_eq_getElem?_getD, ← List.get?_eq_getElem?, hget]
    rfl
  have hdrop : (heapPop q).2.length = q.length - 1 := by
    simp only [heapPop, heapDown, List.length_dropLast, hlen2]
  have hq2 : ∀ m, m < q.length - 1 →
      gp (heapPop q).2 m =
        gp (heapDownGo (q.length - 1) (swapQ q 0 (q.length - 1)) 0 (q.length - 1)) m := by
    intro m hm
    simp only [heapPop, heapDown, gp, List.get?_eq_getElem?, List.getElem?_dropLast, hlen2]
    rw [if_pos (by omega)]
  refine ⟨?_, ?_, ?_, ?_⟩
  · rw [hfst]; exact getD_mem_of_lt q 0 hlen
  · rw [hfst, gp_eq_getD]
  · intro j hj hj0
    have hjlen : j < q.length - 1 := by rw [← hdrop]; exact hj
    rw [hq2 j hjlen, hq2 ((j - 1) / 2) (by omega)]
    exact hres.1 j hjlen hj0
  · intro x hx
    have hx2 : x ∈ heapDownGo (q.length - 1) (swapQ q 0 (q.length - 1)) 0 (q.length - 1) := by
      refine (List.dropLast_prefix _).subset ?_
      simpa [heapPop, heapDown] using hx
    exact mem_swapQ q 0 (q.length - 1) hlen hnlt x (hres.2.1 x hx2)

theorem reapLoop_sorted (ctx : MpCtx) (now maxAge : Nat) :
    ∀ (fuel need : Nat) (queue : List MempoolTx) (txm : List (String × MempoolTx))
      (acc : List Transaction),
      HeapProp queue →
      (∀ m ∈ queue, m.GasPrice = gasOf ctx m.Tx) →
      acc.Pairwise (fun a b => gasOf ctx b ≤ gasOf ctx a) →
      (∀ t ∈ acc, ∀ m ∈ queue, m.GasPrice ≤ gasOf ctx t) →
      ((reapLoop now maxAge fuel need queue txm acc).1).Pairwise
        (fun a b => gasOf ctx b ≤ gasOf ctx a) := by
  intro fuel
  induction fuel with
  | zero =>
    intro need queue txm acc _ _ hacc _
    cases queue <;> simpa [reapLoop] using hacc
  | succ fuel ih =>
    intro need queue txm acc hh hgas hacc hbound
    cases queue with
    | nil => simpa [reapLoop] using hacc
    | cons q0 rest =>
      have hspec := heapPop_spec (q0 :: rest) (by simp) hh
      simp only [reapLoop]
      by_cases hlen : acc.length < need
      · rw [if_pos hlen]
        rcases hpq : heapPop (q0 :: rest) with ⟨mtx, queue'⟩
        rw [hpq] at hspec
        simp only
        by_cases hage : now - mtx.AddedAt > maxAge
        · rw [if_pos hage]
          exact ih need queue' _ acc hspec.2.2.1
            (fun m hm => hgas m (hspec.2.2.2 m hm)) hacc
            (fun t ht m hm => hbound t ht m (hspec.2.2.2 m hm))
        · rw [if_neg hage]
          have hmg : gasOf ctx mtx.Tx = gp (q0 :: rest) 0 := by
            rw [← hspec.2.1]
            exact (hgas mtx hspec.1).symm
          refine ih need queue' _ (acc ++ [mtx.Tx]) hspec.2.2.1
            (fun m hm => hgas m (hspec.2.2.2 m hm)) ?_ ?_
          · rw [List.pairwise_append]
            refine ⟨hacc, List.pairwise_singleton _ _, fun a ha b hb => ?_⟩
            rw [List.mem_singleton] at hb
            subst hb
            have := hbound a ha mtx hspec.1
            rw [hgas mtx hspec.1] at this
            exact this
          · intro t ht m hm
            rcases List.mem_append.mp ht with ht' | ht'
            · exact hbound t ht' m (hspec.2.2.2 m hm)
            · rw [List.mem_singleton] at ht'
              subst ht'
              rw [hmg]
              exact mem_gasPrice_le_root (q0 :: rest) hh m (hspec.2.2.2 m hm)
      · rw [if_neg hlen]
        exact hacc

end tx

/-- C7 (amended): on any mempool whose queue satisfies the binary-heap
property and whose entries carry the gas price `fee / size`, `ReapMaxTxs`
returns transaction `a` before `b` whenever `a`'s gas price exceeds `b`'s
(the output is sorted by gas price, descending); transactions of equal gas
price, however, come back in heap order — the code keeps no insertion
counter, so the claimed FIFO tie-break does not exist. -/
theorem reap_sorted_by_gas_price (ctx : tx.MpCtx) (mp : tx.Mempool) (maxTxs : Int)
    (hheap : tx.HeapProp mp.queue)
    (hgas : ∀ m ∈ mp.queue, m.GasPrice = tx.gasOf ctx m.Tx) :
    ((tx.ReapMaxTxs ctx mp maxTxs).1).Pairwise
      (fun a b => tx.gasOf ctx b ≤ tx.gasOf ctx a) := by
  have h := tx.reapLoop_sorted ctx ctx.now mp.config.MaxTxAge mp.queue.length
    (if maxTxs ≤ 0 then mp.config.MaxSize else maxTxs.toNat) mp.queue mp.txs []
    hheap hgas (List.Pairwise.nil) (fun t ht => absurd ht (List.not_mem_nil t))
  rcases hr : tx.reapLoop ctx.now mp.config.MaxTxAge mp.queue.length
      (if maxTxs ≤ 0 then mp.config.MaxSize else maxTxs.toNat) mp.queue mp.txs []
    with ⟨txs, queue2, txm2⟩
  rw [hr] at h
  simp only [tx.ReapMaxTxs, hr]
  exact h

/-- Witness for the gas-price ordering of `ReapMaxTxs` at the concrete
equal-price pool of the tie-break scenario. -/
theorem reap_sorted_by_gas_price_witness :
    ((tx.ReapMaxTxs tx.scenMpCtx tx.scenMpTies 3).1).Pairwise
      (fun a b => tx.gasOf tx.scenMpCtx b ≤ tx.gasOf tx.scenMpCtx a) :=
  reap_sorted_by_gas_price tx.scenMpCtx tx.scenMpTies 3 (by unfold tx.HeapProp; decide)
    (by decide)

namespace crypto

theorem foldl_digits (B : Nat) :
    ∀ (l : List Nat) (n : Nat),
      l.foldl (fun n d => n * B + d) n = n * B ^ l.length + digitsVal B l := by
  intro l
  induction l with
  | nil => intro n; simp [digitsVal]
  | cons d l ih =>
    intro n
    have hd : digitsVal B (d :: l) = d * B ^ l.length + digitsVal B l := by
      show (d :: l).foldl (fun n d => n * B + d) 0 = _
      rw [List.foldl_cons, ih]
      ring_nf
    rw [List.foldl_cons, ih, List.length_cons, hd]
    ring

theorem digitsVal_cons (B d : Nat) (l : List Nat) :
    digitsVal B (d :: l) = d * B ^ l.length + digitsVal B l := by
  show (d :: l).foldl (fun n d => n * B + d) 0 = _
  rw [List.foldl_cons, foldl_digits]
  ring_nf

theorem digitsVal_append (B : Nat) (l1 l2 : List Nat) :
    digitsVal B (l1 ++ l2) = digitsVal B l1 * B ^ l2.length + digitsVal B l2 := by
  show (l1 ++ l2).foldl (fun n d => n * B + d) 0 = _
  rw [List.foldl_append, foldl_digits]
  rfl

theorem digitsVal_lt (B : Nat) (_hB : 0 < B) :
    ∀ l : List Nat, (∀ x ∈ l, x < B) → digitsVal B l < B ^ l.length := by
  intro l
  induction l with
  | nil => intro _; simp [digitsVal]
  | cons d l ih =>
    intro hmem
    rw [digitsVal_cons, List.length_cons, pow_succ]
    have h1 : digitsVal B l < B ^ l.length :=
      ih (fun x hx => hmem x (List.mem_cons_of_mem d hx))
    have h2 : d < B := hmem d (List.mem_cons_self d l)
    calc d * B ^ l.length + digitsVal B l < d * B ^ l.length + B ^ l.length := by omega
    _ = (d + 1) * B ^ l.length := by ring
    _ ≤ B * B ^ l.length := Nat.mul_le_mul_right _ (by omega)
    _ = B ^ l.length * B := by ring

theorem digits_unique (B : Nat) (hB : 0 < B) :
    ∀ l1 l2 : List Nat, l1.length = l2.length → (∀ x ∈ l1, x < B) → (∀ x ∈ l2, x < B) →
      digitsVal B l1 = digitsVal B l2 → l1 = l2 := by
  intro l1
  induction l1 with
  | nil =>
    intro l2 hlen _ _ _
    exact (List.length_eq_zero.mp hlen.symm).symm
  | cons d1 t1 ih =>
    intro l2 hlen hm1 hm2 hval
    rcases l2 with _ | ⟨d2, t2⟩
    · cases hlen
    · have hlen' : t1.length = t2.length := by simpa using hlen
      rw [digitsVal_cons, digitsVal_cons, hlen'] at hval
      have hv1 : digitsVal B t1 < B ^ t2.length :=
        hlen' ▸ digitsVal_lt B hB t1 (fun x hx => hm1 x (List.mem_cons_of_mem d1 hx))
      have hv2 : digitsVal B t2 < B ^ t2.length :=
        digitsVal_lt B hB t2 (fun x hx => hm2 x (List.mem_cons_of_mem d2 hx))
      have hpow : 0 < B ^ t2.length := pow_pos hB _
      have hd : d1 = d2 := by
        have e1 : (d1 * B ^ t2.length + digitsVal B t1) / B ^ t2.length = d1 := by
          rw [Nat.add_comm, Nat.add_mul_div_right _ _ hpow, Nat.div_eq_of_lt hv1]
          omega
        have e2 : (d2 * B ^ t2.length + digitsVal B t2) / B ^ t2.length = d2 := by
          rw [Nat.add_comm, Nat.add_mul_div_right _ _ hpow, Nat.div_eq_of_lt hv2]
          omega
        rw [← e1, ← e2, hval]
      subst hd
      have ht : digitsVal B t1 = digitsVal B t2 := Nat.add_left_cancel hval
      rw [ih t2 hlen' (fun x hx => hm1 x (List.mem_cons_of_mem d1 hx))
        (fun x hx => hm2 x (List.mem_cons_of_mem d1 hx)) ht]

end crypto

namespace crypto

theorem pow2Pos (n : Nat) : 0 < 2 ^ n := Nat.pos_pow_of_pos n (by norm_num)

theorem shiftLeft_or_add (a v f : Nat) (hv : v < 2 ^ f) :
    (a <<< f) ||| v = a <<< f + v := by
  apply Nat.eq_of_testBit_eq
  intro k
  rw [Nat.testBit_lor]
  rcases Nat.lt_or_ge k f with hk | hk
  · have h1 : (a <<< f).testBit k = false := by
      rw [Nat.testBit_shiftLeft]
      simp [Nat.not_le.mpr hk]
    have hsplit : a <<< f = a * 2 ^ (f - k - 1) * 2 * 2 ^ k := by
      have hexp : f = f - k - 1 + 1 + k := by omega
      rw [Nat.shiftLeft_eq]
      calc a * 2 ^ f = a * (2 ^ (f - k - 1) * 2 ^ 1 * 2 ^ k) := by
            rw [← pow_add, ← pow_add, ← hexp]
        _ = a * 2 ^ (f - k - 1) * 2 * 2 ^ k := by ring
    have h2 : (a <<< f + v).testBit k = v.testBit k := by
      rw [Nat.testBit_to_div_mod, Nat.testBit_to_div_mod, hsplit,
        Nat.add_comm (a * 2 ^ (f - k - 1) * 2 * 2 ^ k) v,
        Nat.add_mul_div_right _ _ (pow2Pos k), Nat.add_mul_mod_self_right]
    rw [h1, h2, Bool.false_or]
  · have hvk : v.testBit k = false :=
      Nat.testBit_eq_false_of_lt
        (lt_of_lt_of_le hv (Nat.pow_le_pow_right (by norm_num) hk))
    have e0 : (2 : Nat) ^ k = 2 ^ f * 2 ^ (k - f) := by
      rw [← pow_add]
      congr 1
      omega
    have h2 : (a <<< f + v).testBit k = (a <<< f).testBit k := by
      rw [Nat.testBit_to_div_mod, Nat.testBit_to_div_mod]
      have e1 : (a <<< f + v) / 2 ^ k = a / 2 ^ (k - f) := by
        rw [Nat.shiftLeft_eq, e0, ← Nat.div_div_eq_div_mul, Nat.add_comm,
          Nat.add_mul_div_right _ _ (pow2Pos f), Nat.div_eq_of_lt hv, Nat.zero_add]
      have e2 : (a <<< f) / 2 ^ k = a / 2 ^ (k - f) := by
        rw [Nat.shiftLeft_eq, e0, ← Nat.div_div_eq_div_mul,
          Nat.mul_div_cancel _ (pow2Pos f)]
      rw [e1, e2]
    rw [hvk, h2, Bool.or_false]

theorem convertEmitGo_spec (toBits : Nat) (ht : 0 < toBits) :
    ∀ (fuel bits acc : Nat), bits ≤ fuel →
      (convertEmitGo toBits (2 ^ toBits - 1) acc fuel bits).2 = bits % toBits ∧
      (convertEmitGo toBits (2 ^ toBits - 1) acc fuel bits).1.length = bits / toBits ∧
      digitsVal (2 ^ toBits) (convertEmitGo toBits (2 ^ toBits - 1) acc fuel bits).1 =
        (acc >>> (bits % toBits)) % 2 ^ (toBits * (bits / toBits)) ∧
      (∀ x ∈ (convertEmitGo toBits (2 ^ toBits - 1) acc fuel bits).1, x < 2 ^ toBits) := by
  intro fuel
  induction fuel with
  | zero =>
    intro bits acc hb
    have hb0 : bits = 0 := by omega
    subst hb0
    simp [convertEmitGo, digitsVal, Nat.mod_eq_of_lt ht, Nat.mod_one]
  | succ fuel ih =>
    intro bits acc hb
    by_cases hguard : 0 < toBits ∧ toBits ≤ bits
    · have hrec := ih (bits - toBits) acc (by omega)
      simp only [convertEmitGo, if_pos hguard]
      have hmod : (bits - toBits) % toBits = bits % toBits := by
        conv_rhs => rw [show bits = (bits - toBits) + toBits by omega]
        rw [Nat.add_mod_right]
      have hdivb : bits / toBits = (bits - toBits) / toBits + 1 := by
        conv_lhs => rw [show bits = (bits - toBits) + toBits by omega]
        rw [Nat.add_div_right _ ht]
      refine ⟨by rw [hrec.1, hmod], by simp [hrec.2.1, hdivb], ?_, ?_⟩
      · rw [digitsVal_cons, hrec.2.1, hrec.2.2.1, hmod, hdivb]
        have hand : acc >>> (bits - toBits) &&& (2 ^ toBits - 1) =
            acc >>> (bits - toBits) % 2 ^ toBits :=
          Nat.and_pow_two_sub_one_eq_mod _ _
        have hshift : acc >>> (bits - toBits) =
            (acc >>> (bits % toBits)) >>> (toBits * ((bits - toBits) / toBits)) := by
          rw [← Nat.shiftRight_add]
          congr 1
          have := Nat.div_add_mod (bits - toBits) toBits
          omega
        rw [hand, hshift]
        set X := acc >>> (bits % toBits) with hX
        set k := (bits - toBits) / toBits with hk
        rw [Nat.shiftRight_eq_div_pow]
        have hpow : (2 : Nat) ^ (toBits * (k + 1)) = 2 ^ (toBits * k) * 2 ^ toBits := by
          rw [← pow_add, Nat.mul_succ]
        rw [hpow, Nat.mod_mul]
        have hpk : ((2 : Nat) ^ toBits) ^ k = 2 ^ (toBits * k) := by
          rw [← pow_mul]
        rw [hpk]
        ring
      · intro x hx
        rcases List.mem_cons.mp hx with hx | hx
        · subst hx
          have hle : acc >>> (bits - toBits) &&& (2 ^ toBits - 1) ≤ 2 ^ toBits - 1 :=
            Nat.and_le_right
          have hp : 0 < (2 : Nat) ^ toBits := pow2Pos _
          omega
        · exact hrec.2.2.2 x hx
    · have hbt : bits < toBits := by omega
      simp [convertEmitGo, if_neg hguard, digitsVal, Nat.mod_eq_of_lt hbt,
        Nat.div_eq_of_lt hbt, Nat.mod_one]

end crypto

namespace crypto

theorem shiftLeft_xor_add (a v f : Nat) (hv : v < 2 ^ f) :
    (a <<< f) ^^^ v = a <<< f + v := by
  rw [← shiftLeft_or_add a v f hv]
  apply Nat.eq_of_testBit_eq
  intro k
  rw [Nat.testBit_xor, Nat.testBit_lor]
  rcases Nat.lt_or_ge k f with hk | hk
  · have h1 : (a <<< f).testBit k = false := by
      rw [Nat.testBit_shiftLeft]
      simp [Nat.not_le.mpr hk]
    rw [h1]
    cases v.testBit k <;> rfl
  · have h2 : v.testBit k = false :=
      Nat.testBit_eq_false_of_lt
        (lt_of_lt_of_le hv (Nat.pow_le_pow_right (by norm_num) hk))
    rw [h2]
    cases (a <<< f).testBit k <;> rfl

theorem div_helper (t a m : Nat) (ht : 0 < t) : (a + m) / t = a / t + (a % t + m) / t := by
  conv_lhs => rw [← Nat.div_add_mod a t]
  rw [Nat.add_assoc, Nat.mul_add_div ht]

theorem convFold_spec (f t : Nat) (_hf : 0 < f) (ht : 0 < t) :
    ∀ (data : List Nat), (∀ x ∈ data, x < 2 ^ f) →
      (data.foldl (convStep f t) (0, 0, [])).1 = digitsVal (2 ^ f) data ∧
      (data.foldl (convStep f t) (0, 0, [])).2.1 = (f * data.length) % t ∧
      (data.foldl (convStep f t) (0, 0, [])).2.2.length = (f * data.length) / t ∧
      (∀ x ∈ (data.foldl (convStep f t) (0, 0, [])).2.2, x < 2 ^ t) ∧
      digitsVal (2 ^ t) (data.foldl (convStep f t) (0, 0, [])).2.2 =
        digitsVal (2 ^ f) data >>> ((f * data.length) % t) := by
  intro data
  induction data using List.reverseRecOn with
  | nil =>
    intro _
    refine ⟨rfl, by simp, by simp [digitsVal], by simp, by simp [digitsVal]⟩
  | append_singleton p v ih =>
    intro hmem
    have hv : v < 2 ^ f := hmem v (List.mem_append_right p (List.mem_singleton.mpr rfl))
    have hp := ih (fun x hx => hmem x (List.mem_append_left _ hx))
    rw [List.foldl_concat]
    set st := p.foldl (convStep f t) (0, 0, []) with hst
    set N := f * p.length with hN
    set Vp := digitsVal (2 ^ f) p with hVp
    have hmaxv : (1 <<< t) - 1 = 2 ^ t - 1 := by
      rw [Nat.shiftLeft_eq, Nat.one_mul]
    have hacc : st.1 <<< f ||| v = Vp * 2 ^ f + v := by
      rw [hp.1, shiftLeft_or_add _ _ _ hv, Nat.shiftLeft_eq]
    have hVapp : digitsVal (2 ^ f) (p ++ [v]) = Vp * 2 ^ f + v := by
      have h1 : digitsVal (2 ^ f) [v] = v := by simp [digitsVal]
      rw [digitsVal_append, h1, List.length_singleton, pow_one, ← hVp]
    have hlen1 : (p ++ [v]).length = p.length + 1 := by simp
    have hbits : st.2.1 + f = N % t + f := by rw [hp.2.1]
    have hspec := convertEmitGo_spec t ht (N % t + f) (N % t + f)
      (Vp * 2 ^ f + v) (Nat.le_refl _)
    have hmodeq : (N % t + f) % t = (N + f) % t := Nat.mod_add_mod N t f ▸ rfl
    have hNf : f * (p ++ [v]).length = N + f := by
      rw [hlen1, hN, Nat.mul_add, Nat.mul_one]
    have hdiveq : (N + f) / t = N / t + (N % t + f) / t := div_helper t N f ht
    have haccdiv : (Vp * 2 ^ f + v) / 2 ^ f = Vp := by
      rw [Nat.add_comm, Nat.add_mul_div_right _ _ (pow2Pos f), Nat.div_eq_of_lt hv,
        Nat.zero_add]
    simp only [convStep, hmaxv, convertEmit, hacc, hbits]
    refine ⟨hVapp.symm, ?_, ?_, ?_, ?_⟩
    · rw [hspec.1, hmodeq, hNf]
    · rw [List.length_append, hspec.2.1, hp.2.2.1, hNf, hdiveq]
    · intro x hx
      rcases List.mem_append.mp hx with hx | hx
      · exact hp.2.2.2.1 x hx
      · exact hspec.2.2.2 x hx
    · rw [digitsVal_append, hspec.2.1, hspec.2.2.1, hp.2.2.2.2, hVapp, hNf, ← hmodeq]
      set Q := (Vp * 2 ^ f + v) >>> ((N % t + f) % t) with hQ
      set D := (2 : Nat) ^ (t * ((N % t + f) / t)) with hD
      have hpowD : ((2 : Nat) ^ t) ^ ((N % t + f) / t) = D := by
        rw [hD, ← pow_mul]
      have hQD : Vp >>> (N % t) = Q / D := by
        rw [hQ, hD, Nat.shiftRight_eq_div_pow, Nat.shiftRight_eq_div_pow,
          Nat.div_div_eq_div_mul, ← pow_add]
        have hexp : (N % t + f) % t + t * ((N % t + f) / t) = N % t + f := by
          have := Nat.div_add_mod (N % t + f) t
          omega
        rw [hexp, show (2 : Nat) ^ (N % t + f) = 2 ^ f * 2 ^ (N % t) by
            rw [← pow_add]; rw [Nat.add_comm], ← Nat.div_div_eq_div_mul, haccdiv]
      rw [hQD, hpowD, Nat.mul_comm]
      exact Nat.div_add_mod Q D

theorem convertBits_exact (data : List Nat) (f t : Nat) (pad : Bool) (hf : 0 < f)
    (ht : 0 < t) (hdvd : f * data.length % t = 0) (helem : ∀ x ∈ data, x < 2 ^ f) :
    (convertBits data f t pad).length = f * data.length / t ∧
    (∀ x ∈ convertBits data f t pad, x < 2 ^ t) ∧
    digitsVal (2 ^ t) (convertBits data f t pad) = digitsVal (2 ^ f) data := by
  have h := convFold_spec f t hf ht data helem
  have hcond : ¬ (pad = true ∧ (data.foldl (convStep f t) (0, 0, [])).2.1 > 0) := by
    rw [h.2.1, hdvd]
    simp
  simp only [convertBits]
  rw [if_neg hcond]
  refine ⟨by rw [h.2.2.1], h.2.2.2.1, ?_⟩
  rw [h.2.2.2.2, hdvd, Nat.shiftRight_zero]

end crypto

namespace crypto

theorem xorLC (a b c : Nat) : a ^^^ (b ^^^ c) = b ^^^ (a ^^^ c) := by
  rw [← Nat.xor_assoc, Nat.xor_comm a b, Nat.xor_assoc]

theorem xor_shiftLeft (a b n : Nat) : (a ^^^ b) <<< n = (a <<< n) ^^^ (b <<< n) := by
  apply Nat.eq_of_testBit_eq
  intro k
  simp [Nat.testBit_shiftLeft, Nat.testBit_xor, Bool.and_xor_distrib_left]

theorem xor_shiftRight (a b n : Nat) : (a ^^^ b) >>> n = (a >>> n) ^^^ (b >>> n) := by
  apply Nat.eq_of_testBit_eq
  intro k
  simp [Nat.testBit_shiftRight, Nat.testBit_xor]

theorem cond_testBit (x i : Nat) : ((x >>> i) &&& 1 = 1) ↔ x.testBit i = true := by
  rw [Nat.and_one_is_mod, Nat.testBit_to_div_mod, Nat.shiftRight_eq_div_pow]
  exact ⟨fun h => decide_eq_true h, fun h => of_decide_eq_true h⟩

theorem foldl_pxor_init (g : Nat → Nat) (p : Nat → Prop) [DecidablePred p] :
    ∀ (l : List Nat) (a : Nat),
      l.foldl (fun c i => if p i then c ^^^ g i else c) a =
        a ^^^ l.foldl (fun c i => if p i then c ^^^ g i else c) 0 := by
  intro l
  induction l with
  | nil => intro a; simp
  | cons i l ih =>
    intro a
    rw [List.foldl_cons, List.foldl_cons, ih, ih (if p i then 0 ^^^ g i else 0)]
    by_cases hp : p i <;> simp [hp, Nat.xor_assoc]

theorem foldl_bxor_init (g : Nat → Nat) (b : Nat → Bool) :
    ∀ (l : List Nat) (a : Nat),
      l.foldl (fun c i => if b i then c ^^^ g i else c) a =
        a ^^^ l.foldl (fun c i => if b i then c ^^^ g i else c) 0 := by
  intro l
  induction l with
  | nil => intro a; simp
  | cons i l ih =>
    intro a
    rw [List.foldl_cons, List.foldl_cons, ih, ih (if b i then 0 ^^^ g i else 0)]
    by_cases hp : b i <;> simp [hp, Nat.xor_assoc]

theorem foldl_bxor_add (g : Nat → Nat) (b1 b2 : Nat → Bool) :
    ∀ (l : List Nat),
      l.foldl (fun c i => if xor (b1 i) (b2 i) then c ^^^ g i else c) 0 =
        l.foldl (fun c i => if b1 i then c ^^^ g i else c) 0 ^^^
          l.foldl (fun c i => if b2 i then c ^^^ g i else c) 0 := by
  intro l
  induction l with
  | nil => simp
  | cons i l ih =>
    rw [List.foldl_cons, List.foldl_cons, List.foldl_cons,
      foldl_bxor_init g (fun i => xor (b1 i) (b2 i)),
      foldl_bxor_init g b1, foldl_bxor_init g b2, ih]
    cases h1 : b1 i <;> cases h2 : b2 i <;>
      simp [h1, h2, Nat.xor_assoc, xorLC, Nat.xor_self, Nat.xor_zero, Nat.zero_xor,
        Nat.xor_cancel_left]

theorem xorGens_eq_foldTestBit (top : Nat) :
    xorGens top = (List.range 5).foldl
      (fun c i => if top.testBit i then c ^^^ bech32Gen.getD i 0 else c) 0 := by
  unfold xorGens
  simp only [cond_testBit]

theorem xorGens_xor (t1 t2 : Nat) : xorGens (t1 ^^^ t2) = xorGens t1 ^^^ xorGens t2 := by
  rw [xorGens_eq_foldTestBit, xorGens_eq_foldTestBit, xorGens_eq_foldTestBit]
  rw [show (fun c i => if (t1 ^^^ t2).testBit i then c ^^^ bech32Gen.getD i 0 else c) =
      (fun c i => if xor (t1.testBit i) (t2.testBit i) then c ^^^ bech32Gen.getD i 0 else c) by
    funext c i
    rw [Nat.testBit_xor]]
  exact foldl_bxor_add (fun i => bech32Gen.getD i 0) (fun i => t1.testBit i)
    (fun i => t2.testBit i) (List.range 5)

theorem polymodStepD_xor (d1 d2 : Nat) :
    polymodStepD (d1 ^^^ d2) = polymodStepD d1 ^^^ polymodStepD d2 := by
  unfold polymodStepD
  rw [Nat.and_xor_distrib_right, xor_shiftLeft, xor_shiftRight, xorGens_xor]
  simp [Nat.xor_assoc, xorLC]

theorem polymodStep_affine (chk v : Nat) :
    polymodStep chk v = polymodStepD chk ^^^ v := by
  simp only [polymodStep, polymodStepD, xorGens]
  rw [foldl_pxor_init (fun i => bech32Gen.getD i 0)
    (fun i => (chk >>> 25 >>> i) &&& 1 = 1) (List.range 5)
    ((chk &&& 0x1ffffff) <<< 5 ^^^ v)]
  simp [Nat.xor_assoc, xorLC, Nat.xor_comm]

theorem polymodStep_diff (c1 c2 v : Nat) :
    polymodStep c1 v ^^^ polymodStep c2 v = polymodStepD (c1 ^^^ c2) := by
  rw [polymodStep_affine, polymodStep_affine, polymodStepD_xor]
  simp [Nat.xor_assoc, xorLC, Nat.xor_comm, Nat.xor_self, Nat.xor_zero,
    Nat.xor_cancel_left]

theorem polymodStep_diff_v (c v1 v2 : Nat) :
    polymodStep c v1 ^^^ polymodStep c v2 = v1 ^^^ v2 := by
  rw [polymodStep_affine, polymodStep_affine]
  simp [Nat.xor_assoc, xorLC, Nat.xor_comm, Nat.xor_self, Nat.xor_zero,
    Nat.xor_cancel_left]

theorem foldl_polymodStep_diff :
    ∀ (l : List Nat) (c1 c2 : Nat),
      l.foldl polymodStep c1 ^^^ l.foldl polymodStep c2 =
        polymodStepDIter l.length (c1 ^^^ c2) := by
  intro l
  induction l with
  | nil => intro c1 c2; rfl
  | cons v l ih =>
    intro c1 c2
    rw [List.foldl_cons, List.foldl_cons, ih, List.length_cons]
    show polymodStepDIter l.length _ = polymodStepDIter (l.length + 1) _
    rw [show polymodStepDIter (l.length + 1) (c1 ^^^ c2) =
        polymodStepDIter l.length (polymodStepD (c1 ^^^ c2)) from rfl,
      polymodStep_diff]

theorem foldl_polymodStep_tailMix :
    ∀ (cs : List Nat) (S : Nat),
      cs.foldl polymodStep S =
        (List.replicate cs.length 0).foldl polymodStep S ^^^ tailMix cs := by
  intro cs
  induction cs with
  | nil => intro S; simp [tailMix]
  | cons c l ih =>
    intro S
    have hd : (List.replicate l.length 0).foldl polymodStep (polymodStep S c) ^^^
        (List.replicate l.length 0).foldl polymodStep (polymodStep S 0) =
        polymodStepDIter l.length c := by
      rw [foldl_polymodStep_diff, List.length_replicate, polymodStep_diff_v, Nat.xor_zero]
    have hA : (List.replicate l.length 0).foldl polymodStep (polymodStep S c) =
        (List.replicate l.length 0).foldl polymodStep (polymodStep S 0) ^^^
          polymodStepDIter l.length c := by
      rw [← hd, Nat.xor_comm ((List.replicate l.length 0).foldl polymodStep (polymodStep S c)),
        Nat.xor_cancel_left]
    rw [List.length_cons, List.replicate_succ, List.foldl_cons, List.foldl_cons,
      ih (polymodStep S c), hA]
    show _ = _ ^^^ (polymodStepDIter l.length c ^^^ tailMix l)
    rw [Nat.xor_assoc]

theorem polymodStepD_small (d : Nat) (hd : d < 2 ^ 25) : polymodStepD d = d <<< 5 := by
  unfold polymodStepD
  have h1 : d &&& 0x1ffffff = d := by
    have h := Nat.and_pow_two_sub_one_eq_mod d 25
    rw [show (0x1ffffff : Nat) = 2 ^ 25 - 1 by norm_num, h, Nat.mod_eq_of_lt hd]
  have h2 : d >>> 25 = 0 := by
    rw [Nat.shiftRight_eq_div_pow, Nat.div_eq_of_lt hd]
  have h3 : xorGens 0 = 0 := by decide
  rw [h1, h2, h3, Nat.xor_zero]

theorem polymodStepDIter_shift :
    ∀ (m d : Nat), d * 2 ^ (5 * m) < 2 ^ 30 → polymodStepDIter m d = d <<< (5 * m) := by
  intro m
  induction m with
  | zero => intro d _; simp [polymodStepDIter]
  | succ m ih =>
    intro d hd
    have h32 : (32 : Nat) ≤ 2 ^ (5 * (m + 1)) := by
      calc (32 : Nat) = 2 ^ 5 := by norm_num
        _ ≤ 2 ^ (5 * (m + 1)) := Nat.pow_le_pow_right (by norm_num) (by omega)
    have hd32 : d * 32 < 2 ^ 30 :=
      lt_of_le_of_lt (Nat.mul_le_mul_left d h32) hd
    have hdlt : d < 2 ^ 25 := by
      have h30 : (2 : Nat) ^ 30 = 2 ^ 25 * 32 := by norm_num
      rw [h30] at hd32
      exact Nat.lt_of_mul_lt_mul_right hd32
    have hstep : d * 2 ^ 5 * 2 ^ (5 * m) < 2 ^ 30 := by
      rw [Nat.mul_assoc, ← pow_add]
      rw [show 5 + 5 * m = 5 * (m + 1) by ring]
      exact hd
    show polymodStepDIter m (polymodStepD d) = d <<< (5 * (m + 1))
    rw [polymodStepD_small d hdlt, show d <<< 5 = d * 2 ^ 5 from Nat.shiftLeft_eq d 5,
      ih (d * 2 ^ 5) hstep, ← Nat.shiftLeft_eq, ← Nat.shiftLeft_add,
      show 5 + 5 * m = 5 * (m + 1) by ring]

theorem xorGens_lt (top : Nat) : xorGens top < 2 ^ 30 := by
  unfold xorGens
  rw [show List.range 5 = [0, 1, 2, 3, 4] by decide]
  simp only [List.foldl_cons, List.foldl_nil]
  split_ifs <;> decide

theorem polymodStep_lt (chk v : Nat) (hv : v < 2 ^ 30) : polymodStep chk v < 2 ^ 30 := by
  rw [polymodStep_affine]
  apply Nat.xor_lt_two_pow _ hv
  unfold polymodStepD
  apply Nat.xor_lt_two_pow _ (xorGens_lt _)
  rw [Nat.shiftLeft_eq]
  have h1 : chk &&& 0x1ffffff ≤ 0x1ffffff := Nat.and_le_right
  calc (chk &&& 0x1ffffff) * 2 ^ 5 ≤ 0x1ffffff * 2 ^ 5 := Nat.mul_le_mul_right _ h1
    _ < 2 ^ 30 := by norm_num

theorem foldl_polymodStep_lt :
    ∀ (l : List Nat) (c : Nat), l ≠ [] → (∀ x ∈ l, x < 2 ^ 30) →
      l.foldl polymodStep c < 2 ^ 30 := by
  intro l
  induction l with
  | nil => intro c h _; exact absurd rfl h
  | cons v l ih =>
    intro c _ hv
    rw [List.foldl_cons]
    rcases l with _ | ⟨w, l'⟩
    · simpa using polymodStep_lt c v (hv v (by simp))
    · exact ih _ (by simp) (fun x hx => hv x (List.mem_cons_of_mem _ hx))

theorem polymod_single_diff (p s : List Nat) (v1 v2 a : Nat) :
    (p ++ v1 :: s).foldl polymodStep a ^^^ (p ++ v2 :: s).foldl polymodStep a =
      polymodStepDIter s.length (v1 ^^^ v2) := by
  rw [List.foldl_append, List.foldl_append, List.foldl_cons, List.foldl_cons,
    foldl_polymodStep_diff, polymodStep_diff_v]

theorem stepDIter_ne_zero : ∀ m < 38, ∀ d < 32, 0 < d → polymodStepDIter m d ≠ 0 := by decide

end crypto

namespace crypto

theorem mul_pow_xor_add (a v f : Nat) (hv : v < 2 ^ f) :
    (a * 2 ^ f) ^^^ v = a * 2 ^ f + v := by
  rw [← Nat.shiftLeft_eq, shiftLeft_xor_add _ _ _ hv, Nat.shiftLeft_eq]

theorem xor_digits_30 (X : Nat) (hX : X < 2 ^ 30) :
    (X >>> 25 &&& 31) <<< 25 ^^^ ((X >>> 20 &&& 31) <<< 20 ^^^ ((X >>> 15 &&& 31) <<< 15 ^^^
      ((X >>> 10 &&& 31) <<< 10 ^^^ ((X >>> 5 &&& 31) <<< 5 ^^^ (X &&& 31))))) = X := by
  have h31 : ∀ a : Nat, a &&& 31 = a % 32 := fun a => by
    have h := Nat.and_pow_two_sub_one_eq_mod a 5
    norm_num at h
    exact h
  simp only [h31, Nat.shiftLeft_eq, Nat.shiftRight_eq_div_pow]
  rw [mul_pow_xor_add (X / 2 ^ 5 % 32) (X % 32) 5 (by omega)]
  rw [mul_pow_xor_add (X / 2 ^ 10 % 32) _ 10 (by omega)]
  rw [mul_pow_xor_add (X / 2 ^ 15 % 32) _ 15 (by omega)]
  rw [mul_pow_xor_add (X / 2 ^ 20 % 32) _ 20 (by omega)]
  rw [mul_pow_xor_add (X / 2 ^ 25 % 32) _ 25 (by omega)]
  omega

theorem hrpExpand_addr_lt : ∀ x ∈ hrpExpand addressHRP, x < 32 := by decide

theorem bech32Checksum_len (hrp data : List Nat) : (bech32Checksum hrp data).length = 6 := by
  simp [bech32Checksum]

theorem bech32Checksum_lt (hrp data : List Nat) :
    ∀ x ∈ bech32Checksum hrp data, x < 32 := by
  intro x hx
  simp only [bech32Checksum, List.mem_map] at hx
  obtain ⟨i, _, hxe⟩ := hx
  rw [← hxe]
  exact lt_of_le_of_lt Nat.and_le_right (by norm_num)

theorem polymod_valid (data : List Nat) (hdata : ∀ x ∈ data, x < 32) :
    bech32Polymod (hrpExpand addressHRP ++ (data ++ bech32Checksum addressHRP data)) = 1 := by
  set X := bech32Polymod (hrpExpand addressHRP ++ data ++ List.replicate 6 0) ^^^ 1 with hX
  have hP0lt : bech32Polymod (hrpExpand addressHRP ++ data ++ List.replicate 6 0) < 2 ^ 30 := by
    apply foldl_polymodStep_lt
    · simp
    · intro x hx
      rcases List.mem_append.mp hx with hx | hx
      · rcases List.mem_append.mp hx with hx | hx
        · exact lt_trans (hrpExpand_addr_lt x hx) (by norm_num)
        · exact lt_trans (hdata x hx) (by norm_num)
      · rw [List.eq_of_mem_replicate hx]
        norm_num
  have hXlt : X < 2 ^ 30 := Nat.xor_lt_two_pow hP0lt (by norm_num)
  have hcs : bech32Checksum addressHRP data =
      [X >>> 25 &&& 31, X >>> 20 &&& 31, X >>> 15 &&& 31,
       X >>> 10 &&& 31, X >>> 5 &&& 31, X &&& 31] := by
    simp only [bech32Checksum, ← hX]
    rw [show List.range 6 = [0, 1, 2, 3, 4, 5] by decide]
    simp only [List.map_cons, List.map_nil]
    norm_num
  have htail : tailMix (bech32Checksum addressHRP data) = X := by
    rw [hcs]
    simp only [tailMix, List.length_cons, List.length_nil]
    rw [polymodStepDIter_shift 5 _
      (lt_of_le_of_lt (Nat.mul_le_mul_right _ Nat.and_le_right) (by norm_num))]
    rw [polymodStepDIter_shift 4 _
      (lt_of_le_of_lt (Nat.mul_le_mul_right _ Nat.and_le_right) (by norm_num))]
    rw [polymodStepDIter_shift 3 _
      (lt_of_le_of_lt (Nat.mul_le_mul_right _ Nat.and_le_right) (by norm_num))]
    rw [polymodStepDIter_shift 2 _
      (lt_of_le_of_lt (Nat.mul_le_mul_right _ Nat.and_le_right) (by norm_num))]
    rw [polymodStepDIter_shift 1 _
      (lt_of_le_of_lt (Nat.mul_le_mul_right _ Nat.and_le_right) (by norm_num))]
    rw [polymodStepDIter_shift 0 _
      (lt_of_le_of_lt (Nat.mul_le_mul_right _ Nat.and_le_right) (by norm_num))]
    norm_num
    exact xor_digits_30 X hXlt
  have hfold : bech32Polymod (hrpExpand addressHRP ++ (data ++ bech32Checksum addressHRP data)) =
      bech32Polymod (hrpExpand addressHRP ++ data ++ List.replicate 6 0) ^^^
        tailMix (bech32Checksum addressHRP data) := by
    unfold bech32Polymod
    rw [← List.append_assoc, List.foldl_append,
      foldl_polymodStep_tailMix (bech32Checksum addressHRP data), bech32Checksum_len]
    simp only [List.foldl_append]
  rw [hfold, htail, hX, Nat.xor_cancel_left]

theorem verify_checksum_valid (data : List Nat) (hdata : ∀ x ∈ data, x < 32) :
    verifyBech32Checksum addressHRP (data ++ bech32Checksum addressHRP data) = true := by
  unfold verifyBech32Checksum
  exact decide_eq_true (polymod_valid data hdata)

theorem charset_getD_index : ∀ b < 32, charsetIndex (bech32Charset.getD b 0) = some b := by
  decide

theorem indexByte_some :
    ∀ (l : List Nat) (c i : Nat), indexByte l c = some i → l.getD i 0 = c ∧ i < l.length := by
  intro l
  induction l with
  | nil => intro c i h; simp [indexByte] at h
  | cons x rest ih =>
    intro c i h
    simp only [indexByte] at h
    by_cases hx : x = c
    · rw [if_pos hx] at h
      injection h with h
      subst h
      exact ⟨hx, by simp⟩
    · rw [if_neg hx] at h
      rcases Option.map_eq_some'.mp h with ⟨j, hj, hji⟩
      subst hji
      have hr := ih c j hj
      refine ⟨?_, by simp; omega⟩
      simpa [List.getD] using hr.1

end crypto

namespace crypto

theorem set_getD_self (l : List Nat) (j : Nat) (h : j < l.length) :
    l.set j (l.getD j 0) = l := by
  rw [List.getD_eq_getElem l 0 h]
  apply List.ext_getElem
  · simp
  · intro i h1 h2
    rcases eq_or_ne i j with rfl | hne
    · simp
    · rw [List.getElem_set_ne hne.symm]

theorem charsetIndex_some (c b : Nat) (h : charsetIndex c = some b) :
    bech32Charset.getD b 0 = c ∧ b < 32 := by
  have hs := indexByte_some bech32Charset c b h
  refine ⟨hs.1, ?_⟩
  have hl : bech32Charset.length = 32 := by decide
  rw [hl] at hs
  exact hs.2

theorem map_dec_map_char (comb : List Nat) (hcomb : ∀ x ∈ comb, x < 32) :
    (comb.map (fun b => bech32Charset.getD b 0)).map (fun c => (charsetIndex c).getD 0) =
      comb := by
  rw [List.map_map]
  have : ∀ x ∈ comb,
      ((fun c => (charsetIndex c).getD 0) ∘ fun b => bech32Charset.getD b 0) x = id x := by
    intro x hx
    simp only [Function.comp_apply, id]
    rw [charset_getD_index x (hcomb x hx)]
    rfl
  rw [List.map_congr_left this, List.map_id]

theorem char_mem_charset (comb : List Nat) (hcomb : ∀ x ∈ comb, x < 32) :
    ∀ c ∈ comb.map (fun b => bech32Charset.getD b 0), (charsetIndex c).isSome = true := by
  intro c hc
  rcases List.mem_map.mp hc with ⟨b, hb, rfl⟩
  rw [charset_getD_index b (hcomb b hb)]
  rfl

theorem validate_encoded (comb : List Nat) (hlen : comb.length = 38)
    (hcomb : ∀ x ∈ comb, x < 32)
    (hver : verifyBech32Checksum addressHRP comb = true) :
    ValidateAddress (addressHRP ++ comb.map (fun b => bech32Charset.getD b 0)) = none := by
  unfold ValidateAddress
  rw [List.take_left, if_neg (fun hne => hne rfl)]
  rw [if_neg (by
    simp only [List.length_append, List.length_map, hlen]
    intro hne
    exact hne rfl)]
  rw [List.drop_left]
  rw [if_neg (by
    intro hne
    exact hne (List.all_eq_true.mpr (char_mem_charset comb hcomb)))]
  rw [map_dec_map_char comb hcomb]
  rw [if_neg (fun hne => hne hver)]

theorem decode_encode (h : List Nat) (hlen : h.length = 20) (hbytes : ∀ b ∈ h, b < 256) :
    DecodeAddress (AddressFromHash h) = some h := by
  have hb8 : ∀ b ∈ h, b < 2 ^ 8 := by
    intro b hb
    have := hbytes b hb
    norm_num
    omega
  have hc := convertBits_exact h 8 5 true (by norm_num) (by norm_num)
    (by rw [hlen]) hb8
  set conv := convertBits h 8 5 true with hconv
  have hclen : conv.length = 32 := by rw [hc.1, hlen]
  have hclt : ∀ x ∈ conv, x < 32 := by
    intro x hx
    have := hc.2.1 x hx
    norm_num at this
    exact this
  have hcslt := bech32Checksum_lt addressHRP conv
  set cs := bech32Checksum addressHRP conv with hcs
  have hcomb : ∀ x ∈ conv ++ cs, x < 32 := by
    intro x hx
    rcases List.mem_append.mp hx with hx | hx
    · exact hclt x hx
    · exact hcslt x hx
  have hcomblen : (conv ++ cs).length = 38 := by
    rw [List.length_append, hclen, hcs, bech32Checksum_len]
  have hv : ValidateAddress (AddressFromHash h) = none := by
    show ValidateAddress (addressHRP ++
      (conv ++ cs).map (fun b => bech32Charset.getD b 0)) = none
    exact validate_encoded (conv ++ cs) hcomblen hcomb (verify_checksum_valid conv hclt)
  unfold DecodeAddress
  rw [if_neg (fun hne => hne hv)]
  have haddr : AddressFromHash h =
      addressHRP ++ (conv ++ cs).map (fun b => bech32Charset.getD b 0) := rfl
  rw [haddr, List.drop_left]
  dsimp only
  have hmaplen : ((conv ++ cs).map (fun b => bech32Charset.getD b 0)).length = 38 := by
    rw [List.length_map, hcomblen]
  rw [hmaplen]
  rw [← List.map_take]
  rw [show (38 : Nat) - 6 = 32 from rfl, ← hclen, List.take_left]
  rw [map_dec_map_char conv hclt]
  have hd := convertBits_exact conv 5 8 false (by norm_num) (by norm_num)
    (by rw [hclen]) hclt
  have hdlen : (convertBits conv 5 8 false).length = 20 := by rw [hd.1, hclen]
  have hdval : digitsVal (2 ^ 8) (convertBits conv 5 8 false) = digitsVal (2 ^ 8) h := by
    rw [hd.2.2]
    show digitsVal (2 ^ 5) conv = _
    rw [hc.2.2]
  have := digits_unique (2 ^ 8) (by norm_num) (convertBits conv 5 8 false) h
    (by rw [hdlen, hlen]) hd.2.1 hb8 hdval
  rw [this]

end crypto

namespace crypto

theorem verify_set_false (comb : List Nat) (hlen : comb.length = 38)
    (hcomb : ∀ x ∈ comb, x < 32)
    (hvalid : bech32Polymod (hrpExpand addressHRP ++ comb) = 1)
    (j b : Nat) (hj : j < 38) (hb : b < 32) (hbne : b ≠ comb.getD j 0) :
    verifyBech32Checksum addressHRP (comb.set j b) = false := by
  have hj' : j < comb.length := by omega
  set b0 := comb.getD j 0 with hb0
  have hb0lt : b0 < 32 := by
    apply hcomb
    rw [hb0, List.getD_eq_getElem comb 0 hj']
    exact List.getElem_mem _
  have hsplit1 : comb.set j b = comb.take j ++ b :: comb.drop (j + 1) :=
    List.set_eq_take_cons_drop b hj'
  have hsplit0 : hrpExpand addressHRP ++ comb =
      (hrpExpand addressHRP ++ comb.take j) ++ b0 :: comb.drop (j + 1) := by
    conv_lhs => rw [← set_getD_self comb j hj', ← hb0]
    rw [List.set_eq_take_cons_drop b0 hj', List.append_assoc]
  have hdiff : bech32Polymod (hrpExpand addressHRP ++ comb.set j b) ^^^
      bech32Polymod (hrpExpand addressHRP ++ comb) =
      polymodStepDIter (comb.drop (j + 1)).length (b ^^^ b0) := by
    rw [hsplit0, hsplit1]
    rw [show hrpExpand addressHRP ++ (comb.take j ++ b :: comb.drop (j + 1)) =
      (hrpExpand addressHRP ++ comb.take j) ++ b :: comb.drop (j + 1) from
        (List.append_assoc _ _ _).symm]
    exact polymod_single_diff (hrpExpand addressHRP ++ comb.take j)
      (comb.drop (j + 1)) b b0 1
  have hiter_ne : polymodStepDIter (comb.drop (j + 1)).length (b ^^^ b0) ≠ 0 := by
    apply stepDIter_ne_zero
    · rw [List.length_drop, hlen]
      omega
    · have hx : b ^^^ b0 < 2 ^ 5 :=
        Nat.xor_lt_two_pow (by norm_num [hb]) (by norm_num [hb0lt])
      norm_num at hx
      exact hx
    · rcases Nat.eq_zero_or_pos (b ^^^ b0) with h0 | h0
      · exact absurd (Nat.xor_eq_zero.mp h0) hbne
      · exact h0
  have hne1 : bech32Polymod (hrpExpand addressHRP ++ comb.set j b) ≠ 1 := by
    intro h1
    rw [h1, hvalid, Nat.xor_self] at hdiff
    exact hiter_ne hdiff.symm
  unfold verifyBech32Checksum
  exact decide_eq_false hne1

theorem validate_set_ne (comb : List Nat) (hlen : comb.length = 38)
    (hcomb : ∀ x ∈ comb, x < 32)
    (hvalid : bech32Polymod (hrpExpand addressHRP ++ comb) = 1) :
    ∀ i < (addressHRP ++ comb.map (fun b => bech32Charset.getD b 0)).length,
      ∀ c, c ≠ (addressHRP ++ comb.map (fun b => bech32Charset.getD b 0)).getD i 0 →
        ValidateAddress ((addressHRP ++ comb.map (fun b => bech32Charset.getD b 0)).set i c) ≠
          none := by
  intro i hi c hc
  have hmaplen : (comb.map (fun b => bech32Charset.getD b 0)).length = 38 := by
    rw [List.length_map, hlen]
  have hHRPlen : addressHRP.length = 5 := rfl
  rcases Nat.lt_or_ge i 5 with hi5 | hi5
  · rw [List.set_append, if_pos (by rw [hHRPlen]; exact hi5)]
    have horig : (addressHRP ++ comb.map (fun b => bech32Charset.getD b 0)).getD i 0 =
        addressHRP.getD i 0 :=
      List.getD_append _ _ _ i (by rw [hHRPlen]; exact hi5)
    unfold ValidateAddress
    rw [show addressHRP.length = (addressHRP.set i c).length from
      (List.length_set addressHRP i c).symm ▸ rfl]
    rw [List.take_left]
    rw [if_pos (show addressHRP.set i c ≠ addressHRP from fun heq => hc (by
      have hgc : (addressHRP.set i c).getD i 0 = c := by
        rw [List.getD_eq_getElem _ 0 (by rw [List.length_set, hHRPlen]; exact hi5)]
        exact List.getElem_set_self _
      rw [horig, ← heq, hgc]))]
    simp
  · have hi43 : i < 43 := by
      rw [List.length_append, hmaplen, hHRPlen] at hi
      omega
    set j := i - 5 with hj
    have hj38 : j < 38 := by omega
    rw [List.set_append, if_neg (by rw [hHRPlen]; omega)]
    have hsub : i - addressHRP.length = j := by rw [hHRPlen, hj]
    rw [hsub]
    have horig : (addressHRP ++ comb.map (fun b => bech32Charset.getD b 0)).getD i 0 =
        (comb.map (fun b => bech32Charset.getD b 0)).getD j 0 := by
      rw [List.getD_append_right _ _ _ i (by rw [hHRPlen]; omega), hsub]
    have hb0eq : (comb.map (fun b => bech32Charset.getD b 0)).getD j 0 =
        bech32Charset.getD (comb.getD j 0) 0 := by
      rw [List.getD_eq_getElem (comb.map (fun b => bech32Charset.getD b 0)) 0
        (by rw [hmaplen]; exact hj38), List.getElem_map,
        List.getD_eq_getElem comb 0 (by rw [hlen]; exact hj38)]
    set b0 := comb.getD j 0 with hb0
    have hb0lt : b0 < 32 := by
      apply hcomb
      rw [hb0, List.getD_eq_getElem comb 0 (by rw [hlen]; exact hj38)]
      exact List.getElem_mem _
    unfold ValidateAddress
    rw [List.take_left, if_neg (fun hne => hne rfl)]
    rw [if_neg (fun hne => hne (by
      simp [List.length_append, List.length_set, hmaplen, addressLength, hlen]))]
    rw [List.drop_left]
    rcases hcs : charsetIndex c with _ | b
    · rw [if_pos (by
        intro hall
        have hfalse : ((comb.map (fun b => bech32Charset.getD b 0)).set j c).all
            (fun c => (charsetIndex c).isSome) = false :=
          List.all_eq_false.mpr ⟨c,
            List.mem_set (comb.map (fun b => bech32Charset.getD b 0)) j
              (by rw [hmaplen]; exact hj38) c,
            by simp [hcs]⟩
        rw [hfalse] at hall
        cases hall)]
      simp
    · obtain ⟨hchar, hblt⟩ := charsetIndex_some c b hcs
      have hbne : b ≠ b0 := by
        intro heq
        apply hc
        rw [horig, hb0eq, ← heq, hchar]
      have hall : ((comb.map (fun b => bech32Charset.getD b 0)).set j c).all
          (fun c => (charsetIndex c).isSome) = true := by
        apply List.all_eq_true.mpr
        intro x hx
        rcases List.mem_or_eq_of_mem_set hx with hx | rfl
        · exact char_mem_charset comb hcomb x hx
        · rw [hcs]
          rfl
      rw [if_neg (fun hne => hne hall)]
      have hdec : ((comb.map (fun b => bech32Charset.getD b 0)).set j c).map
          (fun c => (charsetIndex c).getD 0) = comb.set j b := by
        rw [List.map_set, map_dec_map_char comb hcomb]
        congr 1
        rw [hcs]
        rfl
      rw [hdec]
      have hvf := verify_set_false comb hlen hcomb hvalid j b hj38 hblt
        (by rw [← hb0]; exact hbne)
      rw [if_pos (by rw [hvf]; simp)]
      simp

end crypto

namespace crypto

/-- C8: for any 20-byte hash, decoding the encoded address returns the hash, and
changing any single character of the encoded address makes validation fail. -/
theorem address_roundtrip_and_mutation (h : List Nat) (hlen : h.length = 20)
    (hbytes : ∀ b ∈ h, b < 256) :
    DecodeAddress (AddressFromHash h) = some h ∧
    ∀ i < (AddressFromHash h).length, ∀ c, c ≠ (AddressFromHash h).getD i 0 →
      ValidateAddress ((AddressFromHash h).set i c) ≠ none := by
  refine ⟨decode_encode h hlen hbytes, ?_⟩
  have hb8 : ∀ b ∈ h, b < 2 ^ 8 := by
    intro b hb
    have := hbytes b hb
    norm_num
    omega
  have hc := convertBits_exact h 8 5 true (by norm_num) (by norm_num) (by rw [hlen]) hb8
  set conv := convertBits h 8 5 true with hconv
  have hclen : conv.length = 32 := by rw [hc.1, hlen]
  have hclt : ∀ x ∈ conv, x < 32 := by
    intro x hx
    have := hc.2.1 x hx
    norm_num at this
    exact this
  have hcslt := bech32Checksum_lt addressHRP conv
  set cs := bech32Checksum addressHRP conv with hcs
  have hcomb : ∀ x ∈ conv ++ cs, x < 32 := by
    intro x hx
    rcases List.mem_append.mp hx with hx | hx
    · exact hclt x hx
    · exact hcslt x hx
  have hcomblen : (conv ++ cs).length = 38 := by
    rw [List.length_append, hclen, hcs, bech32Checksum_len]
  have hvalid : bech32Polymod (hrpExpand addressHRP ++ (conv ++ cs)) = 1 :=
    polymod_valid conv hclt
  have haddr : AddressFromHash h =
      addressHRP ++ (conv ++ cs).map (fun b => bech32Charset.getD b 0) := rfl
  rw [haddr]
  exact validate_set_ne (conv ++ cs) hcomblen hcomb hvalid

theorem address_roundtrip_and_mutation_witness :
    DecodeAddress (AddressFromHash (List.range 20)) = some (List.range 20) :=
  (address_roundtrip_and_mutation (List.range 20) (by decide) (by decide)).1

end crypto
